import Mathlib

/-!
Verification development for the Block-STM parallel execution engine
(`core/blockstm`).  The Go sources `executor.go` and the txio definitions
are translated into executable Lean definitions below; the status manager,
the multi-version hash map and `ValidateVersion`, whose Go sources are not
part of this tree, are modelled from the specification (spec.md §4.1–4.3)
and carry doc comments saying so.

Modelling conventions:
* Go `int` is modelled as `Int` (the scheduler uses `-1` sentinels).
* `Key` is opaque to the engine (only equality matters); it is modelled
  as `Nat`.  The opaque `interface{}` value of a write is likewise `Nat`.
* Go maps keyed by `int` are modelled as total functions `Int → _` updated
  pointwise; Go slices indexed by transaction are modelled as `List`s.
* Diagnostic counters (`cntExec`, `diagExecSuccess`, …) that feed only the
  final log line are omitted; they do not influence control flow.
* The field `lastTxIO` of the Go code is spelled `lastTxIo` here.
-/

namespace Blockstm

/-- Opaque key identity (`Key` in the Go code); the engine only compares keys. -/
def Key := Nat

instance : DecidableEq Key := inferInstanceAs (DecidableEq Nat)

instance : BEq Key := ⟨fun a b => decide (a = b)⟩

instance : LawfulBEq Key := ⟨by intro a b h; exact of_decide_eq_true h, by intro a; simp [BEq.beq]⟩

/-- Opaque value carried by a write (`interface{}` in Go); never inspected. -/
def Val := Nat

instance : DecidableEq Val := inferInstanceAs (DecidableEq Nat)

/-- `Version`: transaction index plus incarnation (executor.go / txio part). -/
structure Version where
  TxnIndex : Int
  Incarnation : Int
deriving DecidableEq, Repr

/-- `ReadDescriptor` from the txio source part. -/
structure ReadDescriptor where
  Path : Key
  Kind : Int
  V : Version
deriving DecidableEq

/-- `WriteDescriptor` from the txio source part. -/
structure WriteDescriptor where
  Path : Key
  V : Version
  Val : Val
deriving DecidableEq

def TxnInput := List ReadDescriptor

def TxnOutput := List WriteDescriptor

instance : DecidableEq TxnOutput := inferInstanceAs (DecidableEq (List WriteDescriptor))

instance : DecidableEq TxnInput := inferInstanceAs (DecidableEq (List ReadDescriptor))

instance : Membership WriteDescriptor TxnOutput :=
  inferInstanceAs (Membership WriteDescriptor (List WriteDescriptor))

/-- `TxnOutput.hasNewWrite` from the txio source part: length shortcuts,
then a membership scan of the current set against the compare set. -/
def TxnOutput.hasNewWrite (txo : TxnOutput) (cmpSet : List WriteDescriptor) : Bool :=
  if txo.length = 0 then false
  else if cmpSet.length = 0 ∨ cmpSet.length < txo.length then true
  else txo.any fun v => ! cmpSet.any fun c => c.Path == v.Path

/-- The list of paths occurring in a list of write descriptors. -/
def pathsOf (l : List WriteDescriptor) : List Key := l.map WriteDescriptor.Path

/-- `TxnInputOutput` from the txio source part: three parallel arrays. -/
structure TxnInputOutput where
  inputs : List TxnInput
  outputs : List TxnOutput
  allOutputs : List TxnOutput

/-- `MakeTxnInputOutput` from the txio source part. -/
def MakeTxnInputOutput (numTx : Nat) : TxnInputOutput :=
  { inputs := List.replicate numTx []
    outputs := List.replicate numTx []
    allOutputs := List.replicate numTx [] }

/-- `TxnInputOutput.AllWriteSet` from the txio source part. -/
def TxnInputOutput.AllWriteSet (io : TxnInputOutput) (txnIdx : Int) : List WriteDescriptor :=
  io.allOutputs.getD txnIdx.toNat []

/-- `TxnInputOutput.recordRead` from the txio source part. -/
def TxnInputOutput.recordRead (io : TxnInputOutput) (txId : Int) (input : List ReadDescriptor) :
    TxnInputOutput :=
  { io with inputs := io.inputs.set txId.toNat input }

/-- `TxnInputOutput.recordWrite` from the txio source part. -/
def TxnInputOutput.recordWrite (io : TxnInputOutput) (txId : Int) (output : List WriteDescriptor) :
    TxnInputOutput :=
  { io with outputs := io.outputs.set txId.toNat output }

/-- `TxnInputOutput.recordAllWrite` from the txio source part. -/
def TxnInputOutput.recordAllWrite (io : TxnInputOutput) (txId : Int) (output : List WriteDescriptor) :
    TxnInputOutput :=
  { io with allOutputs := io.allOutputs.set txId.toNat output }

/-! ## Multi-version hash map

The Go source of the MVHashMap is not part of this tree; the structure and
its operations are modelled from the spec (§4.1 MVHashMap). -/

/-- Modelled from the spec: a `Cell` of the MVHashMap is either
`Written(Incarnation, Val)` or `Estimate(LastIncarnation)` (spec §3). -/
inductive Cell where
  | Written (incarnation : Int) (val : Val)
  | Estimate (lastIncarnation : Int)
deriving DecidableEq

/-- Whether a cell is an estimate marker. -/
def Cell.isEstimate : Cell → Bool
  | .Written _ _ => false
  | .Estimate _ => true

/-- Modelled from the spec: the MVHashMap is a map
`Key → OrderedMap<TxnIndex → Cell>` (spec §3); here a flat association list
keyed by `(Key, TxnIndex)`.  Its Go source is not in this tree. -/
structure MVHashMap where
  entries : List (Key × Int × Cell)

/-- Modelled from the spec: `MakeMVHashMap` produces the empty store. -/
def MakeMVHashMap : MVHashMap := ⟨[]⟩

/-- Whether an entry of the store sits at `(k, ti)`. -/
def entryMatches (e : Key × Int × Cell) (k : Key) (ti : Int) : Bool :=
  decide (e.1 = k ∧ e.2.1 = ti)

/-- Lookup in the underlying entry list. -/
def lookupEntries : List (Key × Int × Cell) → Key → Int → Option Cell
  | [], _, _ => none
  | e :: rest, k, ti => if entryMatches e k ti then some e.2.2 else lookupEntries rest k ti

/-- Remove every entry at `(k, ti)` from the underlying entry list. -/
def deleteEntries : List (Key × Int × Cell) → Key → Int → List (Key × Int × Cell)
  | [], _, _ => []
  | e :: rest, k, ti =>
    if entryMatches e k ti then deleteEntries rest k ti else e :: deleteEntries rest k ti

/-- Cell lookup at `(k, ti)`; helper for stating MVHashMap facts. -/
def MVHashMap.lookupCell (m : MVHashMap) (k : Key) (ti : Int) : Option Cell :=
  lookupEntries m.entries k ti

/-- Modelled from the spec: `Write(k, V={ti, inc}, val)` inserts or replaces
the cell at `(k, ti)` with `Written(inc, val)` (spec §4.1). -/
def MVHashMap.Write (m : MVHashMap) (k : Key) (ti inc : Int) (val : Val) : MVHashMap :=
  ⟨(k, ti, Cell.Written inc val) :: deleteEntries m.entries k ti⟩

/-- Modelled from the spec: `Delete(k, ti)` removes the cell at `(k, ti)` if
present (spec §4.1). -/
def MVHashMap.Delete (m : MVHashMap) (k : Key) (ti : Int) : MVHashMap :=
  ⟨deleteEntries m.entries k ti⟩

/-- Turn a cell into an `Estimate` preserving its last incarnation. -/
def markCell : Cell → Cell
  | .Written inc _ => .Estimate inc
  | .Estimate inc => .Estimate inc

/-- Convert the entry at `(k, ti)`, if any, into an `Estimate`. -/
def markEntries : List (Key × Int × Cell) → Key → Int → List (Key × Int × Cell)
  | [], _, _ => []
  | e :: rest, k, ti =>
    (if entryMatches e k ti then (e.1, e.2.1, markCell e.2.2) else e) :: markEntries rest k ti

/-- Modelled from the spec: `MarkEstimate(k, ti)` converts the cell at
`(k, ti)`, if any, into `Estimate` preserving its last incarnation (spec §4.1). -/
def MVHashMap.MarkEstimate (m : MVHashMap) (k : Key) (ti : Int) : MVHashMap :=
  ⟨markEntries m.entries k ti⟩

/-- Modelled from the spec: `FlushMVWriteSet(writes)` applies `Write` for each
write descriptor (spec §4.1). -/
def MVHashMap.FlushMVWriteSet (m : MVHashMap) (writes : List WriteDescriptor) : MVHashMap :=
  writes.foldl (fun acc w => acc.Write w.Path w.V.TxnIndex w.V.Incarnation w.Val) m

/-! ## Status manager

The Go source of the status manager is not part of this tree; the state and
every operation are modelled from the spec (§4.2 Status Manager). -/

/-- Pointwise update of a map modelled as a total function. -/
def updF {α : Type} (f : Int → α) (i : Int) (x : α) : Int → α :=
  fun k => if k = i then x else f k

/-- Insert into a list-modelled set, keeping it duplicate free. -/
def insertU (x : Int) (l : List Int) : List Int :=
  if x ∈ l then l else x :: l

/-- Minimum of a list of indices, `none` when empty. -/
def listMin : List Int → Option Int
  | [] => none
  | x :: xs =>
    match listMin xs with
    | none => some x
    | some y => some (min x y)

/-- Modelled from the spec: the per-transaction status manager — pending
queue, in-progress and complete sets, dependency edges `blocker → blocked`,
and the observable `blockCount` array (-1 once complete) (spec §4.2). -/
structure StatusManager where
  pending : List Int
  inProgress : List Int
  complete : List Int
  dependency : Int → List Int
  blockCount : Int → Int

/-- Modelled from the spec: `makeStatusManager(n)` starts with every index
pending and no edges. -/
def makeStatusManager (n : Nat) : StatusManager :=
  { pending := (List.range n).map Int.ofNat
    inProgress := []
    complete := []
    dependency := fun _ => []
    blockCount := fun _ => 0 }

/-- Modelled from the spec: `pushPending(i)` puts `i` in the ready queue
(spec §4.2). -/
def StatusManager.pushPending (m : StatusManager) (i : Int) : StatusManager :=
  { m with pending := insertU i m.pending }

/-- Modelled from the spec: `minPending()` is the smallest pending index, or
-1 (spec §4.2). -/
def StatusManager.minPending (m : StatusManager) : Int :=
  (listMin m.pending).getD (-1)

/-- Modelled from the spec: `takeNextPending()` pops the smallest pending
index into InProgress, or returns -1 (spec §4.2). -/
def StatusManager.takeNextPending (m : StatusManager) : Int × StatusManager :=
  match listMin m.pending with
  | none => (-1, m)
  | some v =>
    (v, { m with pending := m.pending.filter fun x => x ≠ v
                 inProgress := insertU v m.inProgress })

/-- Modelled from the spec: `markComplete(i)`: InProgress → Complete, with
the observable encoding `blockCount[i] = -1` once complete (spec §4.2). -/
def StatusManager.markComplete (m : StatusManager) (i : Int) : StatusManager :=
  { m with inProgress := m.inProgress.filter fun x => x ≠ i
           complete := insertU i m.complete
           blockCount := updF m.blockCount i (-1) }

/-- Modelled from the spec: `clearInProgress(i)` (spec §4.2). -/
def StatusManager.clearInProgress (m : StatusManager) (i : Int) : StatusManager :=
  { m with inProgress := m.inProgress.filter fun x => x ≠ i }

/-- Modelled from the spec: `clearComplete(i)` (spec §4.2). -/
def StatusManager.clearComplete (m : StatusManager) (i : Int) : StatusManager :=
  { m with complete := m.complete.filter fun x => x ≠ i }

/-- Modelled from the spec: `clearPending(i)` (spec §4.2). -/
def StatusManager.clearPending (m : StatusManager) (i : Int) : StatusManager :=
  { m with pending := m.pending.filter fun x => x ≠ i }

/-- Modelled from the spec: `checkPending(i)` (spec §4.2). -/
def StatusManager.checkPending (m : StatusManager) (i : Int) : Bool :=
  i ∈ m.pending

/-- Modelled from the spec: `addDependencies(blocker, i)` records the edge
`blocker → i` and blocks `i` when the blocker is not yet complete, returning
whether `i` was actually blocked (spec §4.2). -/
def StatusManager.addDependencies (m : StatusManager) (blocker dependent : Int) :
    StatusManager × Bool :=
  if blocker ∈ m.complete then (m, false)
  else if dependent ∈ m.dependency blocker then (m, true)
  else
    ({ m with dependency := updF m.dependency blocker (dependent :: m.dependency blocker)
              blockCount := updF m.blockCount dependent (m.blockCount dependent + 1) },
     true)

/-- One step of `removeDependency`: decrement the block count of a blocked
index and push it pending when the count reaches zero. -/
def StatusManager.decrementBlocked (m : StatusManager) (j : Int) : StatusManager :=
  let c := m.blockCount j - 1
  let m1 := { m with blockCount := updF m.blockCount j c }
  if c = 0 then m1.pushPending j else m1

/-- Modelled from the spec: `removeDependency(i)` treats `i` as now complete:
every `j` blocked by `i` has its block count decremented (pushed pending at
zero) and the edges out of `i` are dropped (spec §4.2). -/
def StatusManager.removeDependency (m : StatusManager) (i : Int) : StatusManager :=
  let m1 := (m.dependency i).foldl StatusManager.decrementBlocked m
  { m1 with dependency := updF m1.dependency i [] }

/-- Modelled from the spec: `countComplete()` (spec §4.2). -/
def StatusManager.countComplete (m : StatusManager) : Nat :=
  m.complete.length

/-- Helper for `maxAllComplete`: extend the complete prefix while possible. -/
def maxCompleteAux (complete : List Int) : Nat → Int → Int
  | 0, last => last
  | fuel + 1, last =>
    if last + 1 ∈ complete then maxCompleteAux complete fuel (last + 1) else last

/-- Modelled from the spec: `maxAllComplete()` is the largest `k` such that
every index `0..k` is complete, or -1 (spec §4.2). -/
def StatusManager.maxAllComplete (m : StatusManager) : Int :=
  maxCompleteAux m.complete m.complete.length (-1)

/-- Closed integer interval `[lo..hi]` as a list. -/
def intRange (lo hi : Int) : List Int :=
  (List.range (hi + 1 - lo).toNat).map fun k => lo + (k : Int)

/-- Modelled from the spec: `getRevalidationRange(from)` is `[from..maxAllComplete]`
(spec §4.2). -/
def StatusManager.getRevalidationRange (m : StatusManager) (txnIdx : Int) : List Int :=
  intRange txnIdx m.maxAllComplete

/-- Modelled from the spec: `pushPendingSet(ixs)` is a batch `pushPending`
(spec §4.2). -/
def StatusManager.pushPendingSet (m : StatusManager) (ixs : List Int) : StatusManager :=
  ixs.foldl StatusManager.pushPending m

/-! ## Tasks, results and the worker body (executor.go) -/

/-- Errors a task's `Execute` can produce: the recoverable
`ErrExecAbortError{Dependency}` or any other (fatal) error, identified by an
opaque code. -/
inductive TaskError where
  | execAbort (Dependency : Int)
  | fatal (code : Nat)
deriving DecidableEq

/-- `ExecResult` from executor.go. -/
structure ExecResult where
  err : Option TaskError
  ver : Version
  txIn : TxnInput
  txOut : TxnOutput
  txAllOut : TxnOutput

/-- Whether a result carries a non-abort (fatal) error. -/
def ExecResult.isFatal (r : ExecResult) : Bool :=
  match r.err with
  | some (.fatal _) => true
  | _ => false

/-- The first fatal error code in a result trace, if any. -/
def firstFatal : List ExecResult → Option Nat
  | [] => none
  | r :: rest =>
    match r.err with
    | some (.fatal e) => some e
    | _ => firstFatal rest

/-- The `ExecTask` interface of executor.go.  `Execute` runs against the
MVHashMap at a given incarnation; the three list accessors expose the
buffers from that run, so they are modelled as functions of the same
arguments.  `Sender` is an opaque address, modelled as `Int`. -/
structure ExecTask where
  Execute : MVHashMap → Int → Option TaskError
  MVReadList : MVHashMap → Int → TxnInput
  MVWriteList : MVHashMap → Int → TxnOutput
  MVFullWriteList : MVHashMap → Int → TxnOutput
  Sender : Int

/-- `ExecVersionView` from executor.go (the `mvh` pointer is passed at call
time in this model). -/
structure ExecVersionView where
  ver : Version
  et : ExecTask

/-- `ExecVersionView.Execute` from executor.go: run the task at the view's
incarnation; on error return only the error, otherwise also the read and
write lists. -/
def ExecVersionView.Execute (ev : ExecVersionView) (mvh : MVHashMap) : ExecResult :=
  match ev.et.Execute mvh ev.ver.Incarnation with
  | some e => { err := some e, ver := ev.ver, txIn := [], txOut := [], txAllOut := [] }
  | none =>
    { err := none
      ver := ev.ver
      txIn := ev.et.MVReadList mvh ev.ver.Incarnation
      txOut := ev.et.MVWriteList mvh ev.ver.Incarnation
      txAllOut := ev.et.MVFullWriteList mvh ev.ver.Incarnation }

/-- The worker body from executor.go (`doWork`): execute the job, flush the
full write set into the MVHashMap when there was no error, and always emit
the result. -/
def workerStep (ev : ExecVersionView) (mvh : MVHashMap) : ExecResult × MVHashMap :=
  let res := ev.Execute mvh
  if res.err.isNone then (res, mvh.FlushMVWriteSet res.txAllOut) else (res, mvh)

/-! ## The coordinator (ExecuteParallel, executor.go) -/

/-- The coordinator-owned state of `ExecuteParallel`: the input/output
table, both status managers, the MVHashMap, incarnation counters and the
estimated-dependency stacks. -/
structure CoordState where
  lastTxIo : TxnInputOutput
  execTasks : StatusManager
  validateTasks : StatusManager
  mvh : MVHashMap
  txIncarnations : Int → Int
  estimateDeps : Int → List Int

/-- Tail of the successful-result branch: push the transaction pending for
validation, mark it execution-complete and release its dependents
(executor.go lines 174–179). -/
def CoordState.finishSuccess (s : CoordState) (ti : Int) : CoordState :=
  { s with validateTasks := s.validateTasks.pushPending ti
           execTasks := (s.execTasks.markComplete ti).removeDependency ti }

/-- The successful-result branch of the coordinator (executor.go lines
143–179): record the read set; for a re-incarnation, queue revalidations
when the write set gained a path, delete vanished writes from the
MVHashMap, then record the write sets; finally mark complete. -/
def handleSuccess (s : CoordState) (res : ExecResult) : CoordState :=
  let ti := res.ver.TxnIndex
  let io1 := s.lastTxIo.recordRead ti res.txIn
  if res.ver.Incarnation = 0 then
    let io2 := (io1.recordWrite ti res.txOut).recordAllWrite ti res.txAllOut
    CoordState.finishSuccess { s with lastTxIo := io2 } ti
  else
    let vt1 :=
      if res.txAllOut.hasNewWrite (io1.AllWriteSet ti) then
        s.validateTasks.pushPendingSet (s.execTasks.getRevalidationRange (ti + 1))
      else s.validateTasks
    let prevWrite := io1.AllWriteSet ti
    let mvh1 := prevWrite.foldl
      (fun acc v =>
        if res.txAllOut.any (fun w => w.Path == v.Path) then acc
        else acc.Delete v.Path ti)
      s.mvh
    let io2 := (io1.recordWrite ti res.txOut).recordAllWrite ti res.txAllOut
    CoordState.finishSuccess { s with lastTxIo := io2, validateTasks := vt1, mvh := mvh1 } ti

/-- The pop loop of the abort branch (executor.go lines 185–190), acting on
the reversed `estimateDeps[ti]` stack: while the top estimate exceeds the
reported dependency, release it via `removeDependency` and pop it. -/
def popTrailAux (dep : Int) : List Int → StatusManager → List Int × StatusManager
  | [], m => ([], m)
  | d :: rest, m =>
    if dep < d then popTrailAux dep rest (m.removeDependency d)
    else (d :: rest, m)

/-- The `ErrExecAbortError` branch of the coordinator (executor.go lines
180–212): reshape dependencies according to the reported dependency (or an
estimated one), clear the in-progress flag, re-queue when nothing blocked,
and bump the incarnation. -/
def handleAbort (s : CoordState) (ti dep : Int) : CoordState :=
  if 0 ≤ dep then
    let p := popTrailAux dep (s.estimateDeps ti).reverse s.execTasks
    let deps1 := p.1.reverse
    let a := p.2.addDependencies dep ti
    let m1 := a.1.clearInProgress ti
    let m2 := if a.2 then m1 else m1.pushPending ti
    { s with execTasks := m2
             estimateDeps := updF s.estimateDeps ti deps1
             txIncarnations := updF s.txIncarnations ti (s.txIncarnations ti + 1) }
  else if 0 ≤ s.execTasks.blockCount ti then
    let estimate := (s.estimateDeps ti).getLastD 0
    let a := s.execTasks.addDependencies estimate ti
    let newEstimate := if ti ≤ estimate + 1 then ti - 1 else estimate + 1
    let deps1 := s.estimateDeps ti ++ [newEstimate]
    let m1 := a.1.clearInProgress ti
    let m2 := if a.2 then m1 else m1.pushPending ti
    { s with execTasks := m2
             estimateDeps := updF s.estimateDeps ti deps1
             txIncarnations := updF s.txIncarnations ti (s.txIncarnations ti + 1) }
  else
    let m1 := s.execTasks.clearInProgress ti
    let m2 := m1.pushPending ti
    { s with execTasks := m2
             txIncarnations := updF s.txIncarnations ti (s.txIncarnations ti + 1) }

/-- Membership of the minimum of a list. -/
theorem listMin_mem {l : List Int} {v : Int} (hm : listMin l = some v) : v ∈ l := by
  induction l generalizing v with
  | nil => simp [listMin] at hm
  | cons x xs ih =>
    simp only [listMin] at hm
    cases hxs : listMin xs with
    | none => rw [hxs] at hm; simp at hm; simp [hm]
    | some y =>
      rw [hxs] at hm
      simp at hm
      rcases min_cases x y with ⟨he, _⟩ | ⟨he, _⟩
      · rw [he] at hm; simp [hm]
      · rw [he] at hm; right; exact hm ▸ ih hxs

/-- `takeNextPending` shrinks the pending queue whenever `minPending` is not
the -1 sentinel. -/
theorem takeNextPending_length_lt (m : StatusManager) (h : m.minPending ≠ -1) :
    (m.takeNextPending).2.pending.length < m.pending.length := by
  unfold StatusManager.minPending at h
  unfold StatusManager.takeNextPending
  cases hm : listMin m.pending with
  | none => simp [hm] at h
  | some v =>
    have hv : v ∈ m.pending := listMin_mem hm
    simp only
    have := List.length_filter_lt_length_iff_exists
      (l := m.pending) (p := fun x => decide (x ≠ v))
    rw [this]
    exact ⟨v, hv, by simp⟩

/-- The validation drain loop (executor.go lines 221–225): pop every pending
validation index not exceeding `maxComplete`. -/
def drainValidation (maxComplete : Int) (m : StatusManager) : List Int × StatusManager :=
  if h : m.minPending ≤ maxComplete ∧ 0 ≤ m.minPending then
    let p := m.takeNextPending
    have : p.2.pending.length < m.pending.length :=
      takeNextPending_length_lt m (by intro he; rw [he] at h; omega)
    let r := drainValidation maxComplete p.2
    (p.1 :: r.1, r.2)
  else ([], m)
termination_by m.pending.length

/-- One validation of a drained index (executor.go lines 230–250), with the
outcome of `ValidateVersion` supplied by the oracle `vcheck`: on success
mark validation-complete; on failure mark the transaction's writes as
estimates, queue the revalidation range, clear the validation in-progress
flag and, unless the index is already execution-pending or still blocked,
re-queue it for execution with a fresh incarnation. -/
def validateStep (vcheck : Int → Bool) (s : CoordState) (tx : Int) : CoordState :=
  if vcheck tx then
    { s with validateTasks := s.validateTasks.markComplete tx }
  else
    let mvh1 := (s.lastTxIo.AllWriteSet tx).foldl
      (fun acc v => acc.MarkEstimate v.Path tx) s.mvh
    let vt1 := (s.validateTasks.pushPendingSet
      (s.execTasks.getRevalidationRange (tx + 1))).clearInProgress tx
    if s.execTasks.checkPending tx then
      { s with mvh := mvh1, validateTasks := vt1 }
    else if s.execTasks.blockCount tx = -1 then
      { s with mvh := mvh1
               validateTasks := vt1
               execTasks := (s.execTasks.pushPending tx).clearComplete tx
               txIncarnations := updF s.txIncarnations tx (s.txIncarnations tx + 1) }
    else
      { s with mvh := mvh1, validateTasks := vt1 }

/-- The validation phase of one coordinator iteration (executor.go lines
218–251). -/
def runValidationPhase (vcheck : Int → Bool) (s : CoordState) : CoordState :=
  let maxComplete := s.execTasks.maxAllComplete
  let d := drainValidation maxComplete s.validateTasks
  d.1.foldl (validateStep vcheck) { s with validateTasks := d.2 }

/-- The speculative drain loop (executor.go lines 265–272): dispatch every
remaining pending execution index, with its current incarnation, to the
speculative queue. -/
def drainSpeculative (m : StatusManager) (incs : Int → Int) :
    List (Int × Int) × StatusManager :=
  if h : m.minPending ≠ -1 then
    let p := m.takeNextPending
    have : p.2.pending.length < m.pending.length := takeNextPending_length_lt m h
    let r := drainSpeculative p.2 incs
    if p.1 ≠ -1 then ((p.1, incs p.1) :: r.1, r.2) else r
  else ([], m)
termination_by m.pending.length

/-- The dispatch policy of one coordinator iteration (executor.go lines
253–272): when the smallest pending execution index is within 20 of the
validated prefix, dispatch it (alone) to the non-speculative queue; then
drain all remaining pending indices to the speculative queue.  Returns the
new state, the non-speculative job if any, and the speculative jobs. -/
def dispatchPhase (s : CoordState) : CoordState × Option (Int × Int) × List (Int × Int) :=
  let maxValidated := s.validateTasks.maxAllComplete
  let s1 :=
    if s.execTasks.minPending ≠ -1 ∧ s.execTasks.minPending ≤ maxValidated + 20 then
      let p := s.execTasks.takeNextPending
      if p.1 ≠ -1 then
        ({ s with execTasks := p.2 }, some (p.1, s.txIncarnations p.1))
      else ({ s with execTasks := p.2 }, (none : Option (Int × Int)))
    else (s, none)
  let d := drainSpeculative s1.1.execTasks s1.1.txIncarnations
  ({ s1.1 with execTasks := d.2 }, s1.2, d.1)

/-- Outcome of running the coordinator loop against a finite trace of
delivered results. -/
inductive RunOutcome where
  | finished (s : CoordState)
  | fatalErr (e : Nat) (s : CoordState)
  | starved (s : CoordState)

/-- The post-result tail of one coordinator iteration: validations followed
by dispatch (executor.go lines 218–272). -/
def postResult (vcheck : Int → Bool) (s : CoordState) : CoordState :=
  (dispatchPhase (runValidationPhase vcheck s)).1

/-- The coordinator loop of `ExecuteParallel` (executor.go lines 133–278),
run against the (finite) trace of results delivered on the result channels,
with `ValidateVersion` outcomes supplied by `vcheck`: aborts are recovered,
any other task error terminates the run with that error, and once both
status managers count `n` completions the loop ends cleanly. -/
def coordLoop (vcheck : Int → Bool) (n : Nat) : List ExecResult → CoordState → RunOutcome
  | [], s => .starved s
  | res :: rest, s =>
    match res.err with
    | some (.fatal e) => .fatalErr e s
    | some (.execAbort dep) =>
      let s1 := postResult vcheck (handleAbort s res.ver.TxnIndex dep)
      if s1.validateTasks.countComplete = n ∧ s1.execTasks.countComplete = n then .finished s1
      else coordLoop vcheck n rest s1
    | none =>
      let s1 := postResult vcheck (handleSuccess s res)
      if s1.validateTasks.countComplete = n ∧ s1.execTasks.countComplete = n then .finished s1
      else coordLoop vcheck n rest s1

/-- Lookup in the `prevSenderTx` association list (sender → last index). -/
def lookupSender : List (Int × Int) → Int → Option Int
  | [], _ => none
  | (a, t) :: rest, snd => if a = snd then some t else lookupSender rest snd

/-- The per-sender serialisation loop of `ExecuteParallel` (executor.go
lines 101–108): for each indexed sender, if the sender already has an
earlier transaction, add a dependency edge from it and clear the new index
from pending. -/
def senderInit : List (Int × Int) → List (Int × Int) → StatusManager → StatusManager
  | [], _, m => m
  | (i, snd) :: rest, prev, m =>
    match lookupSender prev snd with
    | some tx => senderInit rest ((snd, i) :: prev) (((m.addDependencies tx i).1).clearPending i)
    | none => senderInit rest ((snd, i) :: prev) m

/-- `numSpeculativeProcs` from executor.go. -/
def numSpeculativeProcs : Nat := 16

/-- `numGoProcs` from executor.go. -/
def numGoProcs : Nat := 8

/-- The bootstrap loop of `ExecuteParallel` (executor.go lines 112–119):
take up to `numSpeculativeProcs` pending tasks and dispatch them at
incarnation 0. -/
def bootstrapLoop : Nat → StatusManager → StatusManager × List (Int × Int)
  | 0, m => (m, [])
  | k + 1, m =>
    let p := m.takeNextPending
    let r := bootstrapLoop k p.2
    if p.1 ≠ -1 then (r.1, (p.1, 0) :: r.2) else (r.1, r.2)

/-- `ExecuteParallel` from executor.go, as seen from the coordinator: the
tasks are abstracted to their senders (the only task data the coordinator
reads), the results delivered by the workers form the `trace`, and
`ValidateVersion` outcomes are supplied by `vcheck`.  The empty batch
returns an empty table and no error before any worker, channel or MVHashMap
state is created. -/
def ExecuteParallel (senders : List Int) (trace : List ExecResult) (vcheck : Int → Bool) :
    TxnInputOutput × Option Nat :=
  if senders.length = 0 then (MakeTxnInputOutput senders.length, none)
  else
    let n := senders.length
    let exec0 := senderInit (senders.enum.map fun p => ((p.1 : Int), p.2)) [] (makeStatusManager n)
    let b := bootstrapLoop numSpeculativeProcs exec0
    let s0 : CoordState :=
      { lastTxIo := MakeTxnInputOutput n
        execTasks := b.1
        validateTasks := makeStatusManager 0
        mvh := MakeMVHashMap
        txIncarnations := fun _ => 0
        estimateDeps := fun _ => [] }
    match coordLoop vcheck n trace s0 with
    | .finished s => (s.lastTxIo, none)
    | .fatalErr e s => (s.lastTxIo, some e)
    | .starved s => (s.lastTxIo, none)

/-! ## Claim C2: `hasNewWrite` versus path-set inclusion -/

/-- A concrete write descriptor used in closed statements. -/
def wd (p : Nat) : WriteDescriptor := { Path := p, V := ⟨0, 0⟩, Val := (0 : Nat) }

/-- C2 (counterexample): `hasNewWrite` is NOT equivalent to "the paths of
`txo` are not a subset of the paths of `cmpSet`": with the duplicated path
in `[wd 1, wd 1]` against `[wd 1]`, the length shortcut
`len(txo) > len(cmpSet)` returns `true` although the path set is a subset. -/
theorem C2_counterexample :
    ¬ (TxnOutput.hasNewWrite [wd 1, wd 1] [wd 1] = true ↔
        ¬ ∀ p ∈ pathsOf [wd 1, wd 1], p ∈ pathsOf [wd 1]) := by
  decide

/-- Lists of distinct elements cannot inject into shorter lists. -/
theorem nodup_subset_length_le {l l' : List Key} (hnd : l.Nodup)
    (hsub : ∀ p ∈ l, p ∈ l') : l.length ≤ l'.length := by
  have h1 : l.toFinset.card = l.length := List.toFinset_card_of_nodup hnd
  have h2 : l.toFinset ⊆ l'.toFinset := by
    intro x hx
    rw [List.mem_toFinset] at hx ⊢
    exact hsub x hx
  calc l.length = l.toFinset.card := h1.symm
    _ ≤ l'.toFinset.card := Finset.card_le_card h2
    _ ≤ l'.length := List.toFinset_card_le l'

/-- C2 (amended): for a `TxnOutput` whose paths are pairwise distinct (as
produced by the per-key write buffers of the tasks), `txo.hasNewWrite cmpSet`
returns `true` if and only if the set of paths occurring in `txo` is not a
subset of the set of paths occurring in `cmpSet`. -/
theorem C2_hasNewWrite_iff_not_subset (txo : TxnOutput) (cmpSet : List WriteDescriptor)
    (hnd : (pathsOf txo).Nodup) :
    TxnOutput.hasNewWrite txo cmpSet = true ↔
      ¬ ∀ p ∈ pathsOf txo, p ∈ pathsOf cmpSet := by
  unfold TxnOutput.hasNewWrite
  by_cases h0 : txo.length = 0
  · have : txo = [] := List.length_eq_zero.mp h0
    subst this
    simp [pathsOf]
  · rw [if_neg h0]
    by_cases h1 : cmpSet.length = 0 ∨ cmpSet.length < txo.length
    · rw [if_pos h1]
      simp only [true_iff]
      intro hsub
      have hle : txo.length ≤ cmpSet.length := by
        have := nodup_subset_length_le hnd hsub
        simpa [pathsOf] using this
      rcases h1 with h1 | h1
      · -- `cmpSet` empty: any path of the nonempty `txo` refutes inclusion
        have : txo.length = 0 := by omega
        exact h0 this
      · omega
    · rw [if_neg h1]
      simp only [List.any_eq_true, Bool.not_eq_eq_eq_not, Bool.not_true, Bool.not_eq_true,
        List.any_eq_false, beq_iff_eq]
      constructor
      · rintro ⟨v, hv, hno⟩ hsub
        have : v.Path ∈ pathsOf cmpSet := hsub v.Path (List.mem_map_of_mem _ hv)
        rcases (List.mem_map).mp this with ⟨c, hc, hcp⟩
        exact absurd hcp (hno c hc)
      · intro hns
        by_contra hall
        push_neg at hall
        apply hns
        intro p hp
        rcases (List.mem_map).mp hp with ⟨v, hv, rfl⟩
        rcases hall v hv with ⟨c, hc, hcp⟩
        exact (List.mem_map).mpr ⟨c, hc, hcp⟩

/-- Witness for the amended C2 theorem at a concrete input. -/
theorem C2_hasNewWrite_iff_not_subset_witness :
    TxnOutput.hasNewWrite [wd 1, wd 2] [wd 1] = true ↔
      ¬ ∀ p ∈ pathsOf [wd 1, wd 2], p ∈ pathsOf [wd 1] :=
  C2_hasNewWrite_iff_not_subset [wd 1, wd 2] [wd 1] (by decide)

/-! ## Claim C10: the empty batch -/

/-- C10: `ExecuteParallel` on the empty batch returns a `TxnInputOutput`
whose three arrays all have length 0 together with no error; the result is
independent of the worker-result trace and of the validation oracle, since
the early return precedes worker spawning, channel creation and the
MVHashMap. -/
theorem C10_empty_batch (trace : List ExecResult) (vcheck : Int → Bool) :
    ExecuteParallel [] trace vcheck = (MakeTxnInputOutput 0, none) ∧
    (MakeTxnInputOutput 0).inputs.length = 0 ∧
    (MakeTxnInputOutput 0).outputs.length = 0 ∧
    (MakeTxnInputOutput 0).allOutputs.length = 0 :=
  ⟨rfl, rfl, rfl, rfl⟩

/-! ## Claim C8: the worker body -/

/-- C8: for every job processed by a worker, the task's `Execute` runs at
the job's incarnation; when it returns no error the full write list
(`MVFullWriteList`) is flushed into the MVHashMap before the result is
emitted; a result is emitted in every case, and on error nothing is
flushed. -/
theorem C8_worker_flush_and_emit (ev : ExecVersionView) (mvh : MVHashMap) :
    (workerStep ev mvh).1.ver = ev.ver ∧
    (ev.et.Execute mvh ev.ver.Incarnation = none →
      (workerStep ev mvh).2 =
        mvh.FlushMVWriteSet (ev.et.MVFullWriteList mvh ev.ver.Incarnation) ∧
      (workerStep ev mvh).1.err = none ∧
      (workerStep ev mvh).1.txAllOut = ev.et.MVFullWriteList mvh ev.ver.Incarnation) ∧
    (∀ e, ev.et.Execute mvh ev.ver.Incarnation = some e →
      (workerStep ev mvh).2 = mvh ∧ (workerStep ev mvh).1.err = some e) := by
  unfold workerStep ExecVersionView.Execute
  cases h : ev.et.Execute mvh ev.ver.Incarnation with
  | none => simp [h]
  | some e => simp [h]

/-- A concrete task used in closed statements: no error, one write. -/
def et0 : ExecTask :=
  { Execute := fun _ _ => none
    MVReadList := fun _ _ => []
    MVWriteList := fun _ _ => [wd 1]
    MVFullWriteList := fun _ _ => [wd 1]
    Sender := 0 }

/-- A concrete job view over `et0`. -/
def ev0 : ExecVersionView := { ver := ⟨0, 0⟩, et := et0 }

/-- Witness for C8 at a concrete job. -/
theorem C8_worker_flush_and_emit_witness :
    (workerStep ev0 MakeMVHashMap).2 =
      MakeMVHashMap.FlushMVWriteSet (ev0.et.MVFullWriteList MakeMVHashMap ev0.ver.Incarnation) ∧
    (workerStep ev0 MakeMVHashMap).1.err = none ∧
    (workerStep ev0 MakeMVHashMap).1.txAllOut =
      ev0.et.MVFullWriteList MakeMVHashMap ev0.ver.Incarnation :=
  (C8_worker_flush_and_emit ev0 MakeMVHashMap).2.1 rfl

/-! ## Helper lemmas on the status manager -/

theorem mem_insertU {x i : Int} {l : List Int} : x ∈ insertU i l ↔ x = i ∨ x ∈ l := by
  unfold insertU
  split
  · constructor
    · exact Or.inr
    · rintro (rfl | h)
      · assumption
      · exact h
  · simp

@[simp] theorem pushPending_pending (m : StatusManager) (i : Int) :
    (m.pushPending i).pending = insertU i m.pending := rfl

@[simp] theorem pushPending_complete (m : StatusManager) (i : Int) :
    (m.pushPending i).complete = m.complete := rfl

@[simp] theorem pushPending_inProgress (m : StatusManager) (i : Int) :
    (m.pushPending i).inProgress = m.inProgress := rfl

@[simp] theorem pushPending_dependency (m : StatusManager) (i : Int) :
    (m.pushPending i).dependency = m.dependency := rfl

@[simp] theorem pushPending_blockCount (m : StatusManager) (i : Int) :
    (m.pushPending i).blockCount = m.blockCount := rfl

theorem pushPendingSet_complete (m : StatusManager) (ixs : List Int) :
    (m.pushPendingSet ixs).complete = m.complete := by
  induction ixs generalizing m with
  | nil => rfl
  | cons x rest ih => exact ih (m.pushPending x)

theorem pushPendingSet_inProgress (m : StatusManager) (ixs : List Int) :
    (m.pushPendingSet ixs).inProgress = m.inProgress := by
  induction ixs generalizing m with
  | nil => rfl
  | cons x rest ih => exact ih (m.pushPending x)

theorem mem_pushPendingSet {x : Int} (m : StatusManager) (ixs : List Int) :
    x ∈ (m.pushPendingSet ixs).pending ↔ x ∈ ixs ∨ x ∈ m.pending := by
  induction ixs generalizing m with
  | nil => simp [StatusManager.pushPendingSet]
  | cons y rest ih =>
    show x ∈ ((m.pushPending y).pushPendingSet rest).pending ↔ _
    rw [ih]
    simp [mem_insertU]
    tauto

theorem foldl_dec_complete (js : List Int) (m : StatusManager) :
    (js.foldl StatusManager.decrementBlocked m).complete = m.complete := by
  induction js generalizing m with
  | nil => rfl
  | cons j rest ih =>
    show (rest.foldl _ (m.decrementBlocked j)).complete = _
    rw [ih]
    unfold StatusManager.decrementBlocked
    dsimp only
    split <;> rfl

theorem foldl_dec_inProgress (js : List Int) (m : StatusManager) :
    (js.foldl StatusManager.decrementBlocked m).inProgress = m.inProgress := by
  induction js generalizing m with
  | nil => rfl
  | cons j rest ih =>
    show (rest.foldl _ (m.decrementBlocked j)).inProgress = _
    rw [ih]
    unfold StatusManager.decrementBlocked
    dsimp only
    split <;> rfl

theorem foldl_dec_dependency (js : List Int) (m : StatusManager) :
    (js.foldl StatusManager.decrementBlocked m).dependency = m.dependency := by
  induction js generalizing m with
  | nil => rfl
  | cons j rest ih =>
    show (rest.foldl _ (m.decrementBlocked j)).dependency = _
    rw [ih]
    unfold StatusManager.decrementBlocked
    dsimp only
    split <;> rfl

theorem foldl_dec_pending_mono {x : Int} (js : List Int) (m : StatusManager)
    (h : x ∈ m.pending) : x ∈ (js.foldl StatusManager.decrementBlocked m).pending := by
  induction js generalizing m with
  | nil => exact h
  | cons j rest ih =>
    show x ∈ (rest.foldl _ (m.decrementBlocked j)).pending
    apply ih
    unfold StatusManager.decrementBlocked
    dsimp only
    split
    · simp [mem_insertU]
      exact Or.inr h
    · exact h

theorem foldl_dec_pending_not {x : Int} (js : List Int) (m : StatusManager)
    (hx : x ∉ js) (h : x ∉ m.pending) :
    x ∉ (js.foldl StatusManager.decrementBlocked m).pending := by
  induction js generalizing m with
  | nil => exact h
  | cons j rest ih =>
    show x ∉ (rest.foldl _ (m.decrementBlocked j)).pending
    have hxj : x ≠ j := fun he => hx (he ▸ List.mem_cons_self j rest)
    refine ih _ (fun hr => hx (List.mem_cons_of_mem j hr)) ?_
    unfold StatusManager.decrementBlocked
    dsimp only
    split
    · rw [pushPending_pending, mem_insertU]
      rintro (rfl | hp)
      · exact hxj rfl
      · exact h hp
    · exact h

theorem foldl_dec_blockCount_not {x : Int} (js : List Int) (m : StatusManager)
    (hx : x ∉ js) :
    (js.foldl StatusManager.decrementBlocked m).blockCount x = m.blockCount x := by
  induction js generalizing m with
  | nil => rfl
  | cons j rest ih =>
    show (rest.foldl _ (m.decrementBlocked j)).blockCount x = _
    have hxj : x ≠ j := fun he => hx (he ▸ List.mem_cons_self j rest)
    rw [ih (m.decrementBlocked j) (fun hr => hx (List.mem_cons_of_mem j hr))]
    unfold StatusManager.decrementBlocked
    dsimp only
    split
    · simp [updF, hxj]
    · simp [updF, hxj]

theorem removeDependency_complete (m : StatusManager) (i : Int) :
    (m.removeDependency i).complete = m.complete := by
  unfold StatusManager.removeDependency
  exact foldl_dec_complete _ m

theorem removeDependency_inProgress (m : StatusManager) (i : Int) :
    (m.removeDependency i).inProgress = m.inProgress := by
  unfold StatusManager.removeDependency
  exact foldl_dec_inProgress _ m

theorem removeDependency_dependency_self (m : StatusManager) (i : Int) :
    (m.removeDependency i).dependency i = [] := by
  unfold StatusManager.removeDependency
  simp [updF]

theorem removeDependency_dependency_other (m : StatusManager) {i k : Int} (h : k ≠ i) :
    (m.removeDependency i).dependency k = m.dependency k := by
  unfold StatusManager.removeDependency
  dsimp only
  rw [updF]
  rw [if_neg h, foldl_dec_dependency]

theorem removeDependency_pending_mono {x : Int} (m : StatusManager) (i : Int)
    (h : x ∈ m.pending) : x ∈ (m.removeDependency i).pending := by
  unfold StatusManager.removeDependency
  exact foldl_dec_pending_mono _ m h

theorem removeDependency_pending_not {x : Int} (m : StatusManager) (i : Int)
    (hx : x ∉ m.dependency i) (h : x ∉ m.pending) :
    x ∉ (m.removeDependency i).pending := by
  unfold StatusManager.removeDependency
  exact foldl_dec_pending_not _ m hx h

theorem removeDependency_blockCount_not {x : Int} (m : StatusManager) (i : Int)
    (hx : x ∉ m.dependency i) :
    (m.removeDependency i).blockCount x = m.blockCount x := by
  unfold StatusManager.removeDependency
  exact foldl_dec_blockCount_not _ m hx

@[simp] theorem markComplete_complete (m : StatusManager) (i : Int) :
    (m.markComplete i).complete = insertU i m.complete := rfl

@[simp] theorem markComplete_pending (m : StatusManager) (i : Int) :
    (m.markComplete i).pending = m.pending := rfl

@[simp] theorem markComplete_inProgress (m : StatusManager) (i : Int) :
    (m.markComplete i).inProgress = m.inProgress.filter fun x => x ≠ i := rfl

@[simp] theorem markComplete_dependency (m : StatusManager) (i : Int) :
    (m.markComplete i).dependency = m.dependency := rfl

@[simp] theorem clearInProgress_pending (m : StatusManager) (i : Int) :
    (m.clearInProgress i).pending = m.pending := rfl

@[simp] theorem clearInProgress_complete (m : StatusManager) (i : Int) :
    (m.clearInProgress i).complete = m.complete := rfl

@[simp] theorem clearInProgress_inProgress (m : StatusManager) (i : Int) :
    (m.clearInProgress i).inProgress = m.inProgress.filter fun x => x ≠ i := rfl

@[simp] theorem clearInProgress_dependency (m : StatusManager) (i : Int) :
    (m.clearInProgress i).dependency = m.dependency := rfl

@[simp] theorem clearInProgress_blockCount (m : StatusManager) (i : Int) :
    (m.clearInProgress i).blockCount = m.blockCount := rfl

@[simp] theorem clearComplete_complete (m : StatusManager) (i : Int) :
    (m.clearComplete i).complete = m.complete.filter fun x => x ≠ i := rfl

@[simp] theorem clearComplete_pending (m : StatusManager) (i : Int) :
    (m.clearComplete i).pending = m.pending := rfl

/-! ## Helper lemmas on the MVHashMap -/

theorem lookupEntries_delete_self (l : List (Key × Int × Cell)) (k : Key) (ti : Int) :
    lookupEntries (deleteEntries l k ti) k ti = none := by
  induction l with
  | nil => rfl
  | cons e rest ih =>
    unfold deleteEntries
    by_cases hm : entryMatches e k ti = true
    · rw [if_pos hm]; exact ih
    · rw [if_neg hm]
      unfold lookupEntries
      rw [if_neg hm]
      exact ih

theorem lookupEntries_delete_none (l : List (Key × Int × Cell)) (k' : Key) (ti' : Int)
    {k : Key} {ti : Int} (h : lookupEntries l k ti = none) :
    lookupEntries (deleteEntries l k' ti') k ti = none := by
  induction l with
  | nil => rfl
  | cons e rest ih =>
    unfold lookupEntries at h
    by_cases hm : entryMatches e k ti = true
    · rw [if_pos hm] at h; exact absurd h (by simp)
    · rw [if_neg hm] at h
      unfold deleteEntries
      by_cases hm' : entryMatches e k' ti' = true
      · rw [if_pos hm']; exact ih h
      · rw [if_neg hm']
        unfold lookupEntries
        rw [if_neg hm]
        exact ih h

theorem lookupCell_Delete_self (m : MVHashMap) (k : Key) (ti : Int) :
    (m.Delete k ti).lookupCell k ti = none :=
  lookupEntries_delete_self m.entries k ti

theorem lookupCell_Delete_none (m : MVHashMap) {k : Key} {ti : Int} (k' : Key) (ti' : Int)
    (h : m.lookupCell k ti = none) : (m.Delete k' ti').lookupCell k ti = none :=
  lookupEntries_delete_none m.entries k' ti' h

theorem foldDelete_pres_none (keep : WriteDescriptor → Bool) (ti : Int) {k : Key} {ti' : Int} :
    ∀ (prev : List WriteDescriptor) (acc : MVHashMap),
      acc.lookupCell k ti' = none →
      (prev.foldl (fun acc v => if keep v then acc else acc.Delete v.Path ti) acc).lookupCell
        k ti' = none := by
  intro prev
  induction prev with
  | nil => intro acc h; exact h
  | cons u rest ih =>
    intro acc h
    show (rest.foldl _ (if keep u then acc else acc.Delete u.Path ti)).lookupCell k ti' = none
    apply ih
    by_cases hk : keep u = true
    · rw [if_pos hk]; exact h
    · rw [if_neg hk]; exact lookupCell_Delete_none acc u.Path ti h

theorem foldDelete_none (keep : WriteDescriptor → Bool) (ti : Int) :
    ∀ (prev : List WriteDescriptor) (acc : MVHashMap) (v : WriteDescriptor),
      v ∈ prev → keep v = false →
      (prev.foldl (fun acc v => if keep v then acc else acc.Delete v.Path ti) acc).lookupCell
        v.Path ti = none := by
  intro prev
  induction prev with
  | nil => intro acc v hv; exact absurd hv (List.not_mem_nil v)
  | cons u rest ih =>
    intro acc v hv hkeep
    rcases List.mem_cons.mp hv with rfl | hv'
    · show (rest.foldl _ (if keep v then acc else acc.Delete v.Path ti)).lookupCell v.Path ti = none
      apply foldDelete_pres_none
      rw [if_neg (by rw [hkeep]; exact Bool.false_ne_true)]
      exact lookupCell_Delete_self acc v.Path ti
    · exact ih _ v hv' hkeep

theorem markCell_isEstimate (c : Cell) : (markCell c).isEstimate = true := by
  cases c <;> rfl

theorem entryMatches_markHead (e : Key × Int × Cell) (k' : Key) (ti' : Int) (k : Key) (ti : Int) :
    entryMatches (if entryMatches e k' ti' then (e.1, e.2.1, markCell e.2.2) else e) k ti =
      entryMatches e k ti := by
  split
  · simp [entryMatches]
  · rfl

theorem lookupEntries_mark_self (l : List (Key × Int × Cell)) (k : Key) (ti : Int) :
    ∀ c, lookupEntries (markEntries l k ti) k ti = some c → c.isEstimate = true := by
  induction l with
  | nil => intro c hc; exact absurd hc (by simp [markEntries, lookupEntries])
  | cons e rest ih =>
    intro c hc
    unfold markEntries lookupEntries at hc
    rw [entryMatches_markHead] at hc
    by_cases hm : entryMatches e k ti = true
    · rw [if_pos hm] at hc
      rw [if_pos hm] at hc
      have hce : markCell e.2.2 = c := Option.some.inj hc
      rw [← hce]
      exact markCell_isEstimate _
    · rw [if_neg hm] at hc
      exact ih c hc

theorem lookupEntries_mark_pres (l : List (Key × Int × Cell)) (k' : Key) (ti' : Int)
    {k : Key} {ti : Int}
    (hprev : ∀ c, lookupEntries l k ti = some c → c.isEstimate = true) :
    ∀ c, lookupEntries (markEntries l k' ti') k ti = some c → c.isEstimate = true := by
  induction l with
  | nil => intro c hc; exact absurd hc (by simp [markEntries, lookupEntries])
  | cons e rest ih =>
    intro c hc
    unfold markEntries lookupEntries at hc
    rw [entryMatches_markHead] at hc
    unfold lookupEntries at hprev
    by_cases hm : entryMatches e k ti = true
    · rw [if_pos hm] at hc
      have hE : e.2.2.isEstimate = true := hprev e.2.2 (by rw [if_pos hm])
      by_cases hm' : entryMatches e k' ti' = true
      · rw [if_pos hm'] at hc
        have hce : markCell e.2.2 = c := Option.some.inj hc
        rw [← hce]
        exact markCell_isEstimate _
      · rw [if_neg hm'] at hc
        have hce : e.2.2 = c := Option.some.inj hc
        rw [← hce]
        exact hE
    · rw [if_neg hm] at hc
      refine ih ?_ c hc
      intro c' hc'
      exact hprev c' (by rw [if_neg hm]; exact hc')

theorem lookupCell_MarkEstimate_self (m : MVHashMap) (k : Key) (ti : Int) :
    ∀ c, (m.MarkEstimate k ti).lookupCell k ti = some c → c.isEstimate = true :=
  lookupEntries_mark_self m.entries k ti

theorem lookupCell_MarkEstimate_pres (m : MVHashMap) (k' : Key) (ti' : Int) {k : Key} {ti : Int}
    (hprev : ∀ c, m.lookupCell k ti = some c → c.isEstimate = true) :
    ∀ c, (m.MarkEstimate k' ti').lookupCell k ti = some c → c.isEstimate = true :=
  lookupEntries_mark_pres m.entries k' ti' hprev

theorem foldMark_pres (tx : Int) {k : Key} {ti : Int} :
    ∀ (ws : List WriteDescriptor) (acc : MVHashMap),
      (∀ c, acc.lookupCell k ti = some c → c.isEstimate = true) →
      ∀ c, ((ws.foldl (fun acc v => acc.MarkEstimate v.Path tx) acc).lookupCell k ti = some c) →
        c.isEstimate = true := by
  intro ws
  induction ws with
  | nil => intro acc h; exact h
  | cons u rest ih =>
    intro acc h
    show ∀ c, ((rest.foldl _ (acc.MarkEstimate u.Path tx)).lookupCell k ti = some c) → _
    exact ih _ (lookupCell_MarkEstimate_pres acc u.Path tx h)

theorem foldMark_estimate (tx : Int) :
    ∀ (ws : List WriteDescriptor) (acc : MVHashMap) (v : WriteDescriptor), v ∈ ws →
      ∀ c, ((ws.foldl (fun acc v => acc.MarkEstimate v.Path tx) acc).lookupCell v.Path tx
        = some c) → c.isEstimate = true := by
  intro ws
  induction ws with
  | nil => intro acc v hv; exact absurd hv (List.not_mem_nil v)
  | cons u rest ih =>
    intro acc v hv
    rcases List.mem_cons.mp hv with rfl | hv'
    · show ∀ c, ((rest.foldl _ (acc.MarkEstimate v.Path tx)).lookupCell v.Path tx = some c) → _
      exact foldMark_pres tx rest _ (lookupCell_MarkEstimate_self acc v.Path tx)
    · exact ih _ v hv'

/-! ## Claim C3: the successful re-incarnation branch -/

theorem getD_set_self {α : Type} (l : List α) (i : Nat) (x d : α) (h : i < l.length) :
    (l.set i x).getD i d = x := by
  rw [List.getD_eq_getElem?_getD, List.getElem?_set_eq_of_lt x h]
  rfl

/-- A genuinely new write path forces `hasNewWrite`. -/
theorem hasNewWrite_of_new_path (txo : TxnOutput) (cmpSet : List WriteDescriptor)
    (h : ∃ w ∈ txo, w.Path ∉ pathsOf cmpSet) : txo.hasNewWrite cmpSet = true := by
  rcases h with ⟨w, hw, hnp⟩
  unfold TxnOutput.hasNewWrite
  have hne : ¬ txo.length = 0 := by
    intro h0
    rw [List.length_eq_zero] at h0
    subst h0
    exact absurd hw (List.not_mem_nil w)
  rw [if_neg hne]
  by_cases h1 : cmpSet.length = 0 ∨ cmpSet.length < txo.length
  · rw [if_pos h1]
  · rw [if_neg h1]
    rw [List.any_eq_true]
    refine ⟨w, hw, ?_⟩
    simp only [Bool.not_eq_true', List.any_eq_false, beq_iff_eq]
    intro c hc heq
    exact hnp (heq ▸ List.mem_map_of_mem WriteDescriptor.Path hc)

@[simp] theorem finishSuccess_validateTasks (s : CoordState) (ti : Int) :
    (s.finishSuccess ti).validateTasks = s.validateTasks.pushPending ti := rfl

@[simp] theorem finishSuccess_execTasks (s : CoordState) (ti : Int) :
    (s.finishSuccess ti).execTasks = (s.execTasks.markComplete ti).removeDependency ti := rfl

@[simp] theorem finishSuccess_mvh (s : CoordState) (ti : Int) :
    (s.finishSuccess ti).mvh = s.mvh := rfl

@[simp] theorem finishSuccess_lastTxIo (s : CoordState) (ti : Int) :
    (s.finishSuccess ti).lastTxIo = s.lastTxIo := rfl

/-- The successful-result branch at a positive incarnation, written as one
state expression. -/
theorem handleSuccess_eq (s : CoordState) (res : ExecResult)
    (hne : ¬ res.ver.Incarnation = 0) :
    handleSuccess s res = CoordState.finishSuccess
      { s with
        lastTxIo := ((s.lastTxIo.recordRead res.ver.TxnIndex res.txIn).recordWrite
          res.ver.TxnIndex res.txOut).recordAllWrite res.ver.TxnIndex res.txAllOut
        validateTasks :=
          if res.txAllOut.hasNewWrite (s.lastTxIo.AllWriteSet res.ver.TxnIndex) then
            s.validateTasks.pushPendingSet
              (s.execTasks.getRevalidationRange (res.ver.TxnIndex + 1))
          else s.validateTasks
        mvh := (s.lastTxIo.AllWriteSet res.ver.TxnIndex).foldl
          (fun acc v =>
            if res.txAllOut.any (fun w => w.Path == v.Path) then acc
            else acc.Delete v.Path res.ver.TxnIndex)
          s.mvh }
      res.ver.TxnIndex := by
  unfold handleSuccess
  rw [if_neg hne]
  rfl

/-- C3: when the coordinator consumes a successful result at incarnation
`inc > 0`: a genuinely new write path forces the revalidation range from
`ti+1` into the validation pending queue; every path of the prior
`allOutputs[ti]` absent from the new one is deleted at `(path, ti)` in the
MVHashMap; `outputs[ti]` and `allOutputs[ti]` are overwritten with the new
sets; and `ti` is pushed pending for validation, marked execution-complete
(hence no longer in progress) and `removeDependency(ti)` is applied, so its
outgoing edges are cleared. -/
theorem C3_success_reincarnation (s : CoordState) (res : ExecResult)
    (hinc : 0 < res.ver.Incarnation)
    (hl1 : res.ver.TxnIndex.toNat < s.lastTxIo.outputs.length)
    (hl2 : res.ver.TxnIndex.toNat < s.lastTxIo.allOutputs.length) :
    ((∃ w ∈ res.txAllOut, w.Path ∉ pathsOf (s.lastTxIo.AllWriteSet res.ver.TxnIndex)) →
      ∀ x ∈ s.execTasks.getRevalidationRange (res.ver.TxnIndex + 1),
        x ∈ (handleSuccess s res).validateTasks.pending) ∧
    (∀ v ∈ s.lastTxIo.AllWriteSet res.ver.TxnIndex,
      v.Path ∉ pathsOf res.txAllOut →
      (handleSuccess s res).mvh.lookupCell v.Path res.ver.TxnIndex = none) ∧
    (handleSuccess s res).lastTxIo.outputs.getD res.ver.TxnIndex.toNat [] = res.txOut ∧
    (handleSuccess s res).lastTxIo.allOutputs.getD res.ver.TxnIndex.toNat [] = res.txAllOut ∧
    res.ver.TxnIndex ∈ (handleSuccess s res).validateTasks.pending ∧
    res.ver.TxnIndex ∈ (handleSuccess s res).execTasks.complete ∧
    res.ver.TxnIndex ∉ (handleSuccess s res).execTasks.inProgress ∧
    (handleSuccess s res).execTasks.dependency res.ver.TxnIndex = [] := by
  have hne : ¬ res.ver.Incarnation = 0 := by omega
  rw [handleSuccess_eq s res hne]
  refine ⟨?_, ?_, ?_, ?_, ?_, ?_, ?_, ?_⟩
  · -- revalidation range pushed on a genuinely new write path
    intro hex x hx
    rw [finishSuccess_validateTasks]
    simp only
    rw [hasNewWrite_of_new_path res.txAllOut _ hex, if_pos rfl]
    rw [pushPending_pending, mem_insertU]
    right
    rw [mem_pushPendingSet]
    exact Or.inl hx
  · -- vanished paths are deleted from the MVHashMap
    intro v hv hnp
    rw [finishSuccess_mvh]
    simp only
    refine foldDelete_none (fun v => res.txAllOut.any fun w => w.Path == v.Path)
      res.ver.TxnIndex _ s.mvh v hv ?_
    rw [List.any_eq_false]
    intro w hw
    simp only [beq_iff_eq]
    intro heq
    exact hnp (heq ▸ List.mem_map_of_mem WriteDescriptor.Path hw)
  · -- outputs[ti] overwritten
    rw [finishSuccess_lastTxIo]
    simp only [TxnInputOutput.recordAllWrite, TxnInputOutput.recordWrite,
      TxnInputOutput.recordRead]
    exact getD_set_self _ _ _ _ hl1
  · -- allOutputs[ti] overwritten
    rw [finishSuccess_lastTxIo]
    simp only [TxnInputOutput.recordAllWrite, TxnInputOutput.recordWrite,
      TxnInputOutput.recordRead]
    exact getD_set_self _ _ _ _ hl2
  · -- ti pushed pending for validation
    rw [finishSuccess_validateTasks, pushPending_pending, mem_insertU]
    exact Or.inl rfl
  · -- ti marked execution-complete
    rw [finishSuccess_execTasks]
    rw [removeDependency_complete, markComplete_complete, mem_insertU]
    exact Or.inl rfl
  · -- ti no longer in progress
    rw [finishSuccess_execTasks]
    rw [removeDependency_inProgress, markComplete_inProgress]
    simp
  · -- removeDependency applied: outgoing edges cleared
    rw [finishSuccess_execTasks]
    exact removeDependency_dependency_self _ _

/-- A concrete coordinator state over two transactions. -/
def s3 : CoordState :=
  { lastTxIo := MakeTxnInputOutput 2
    execTasks := makeStatusManager 2
    validateTasks := makeStatusManager 0
    mvh := MakeMVHashMap
    txIncarnations := fun _ => 0
    estimateDeps := fun _ => [] }

/-- A concrete successful re-incarnation result. -/
def res3 : ExecResult :=
  { err := none, ver := ⟨1, 1⟩, txIn := [], txOut := [wd 1], txAllOut := [wd 1] }

/-- Witness for C3 at a concrete state and result. -/
theorem C3_success_reincarnation_witness :
    (1 : Int) ∈ (handleSuccess s3 res3).validateTasks.pending :=
  (C3_success_reincarnation s3 res3 (by decide) (by decide) (by decide)).2.2.2.2.1

/-! ## Claim C4: the abort branch with a reported dependency -/

theorem updF_same {α : Type} (f : Int → α) (i : Int) (x : α) : updF f i x i = x := by
  simp [updF]

theorem updF_other {α : Type} (f : Int → α) (i : Int) (x : α) {k : Int} (h : k ≠ i) :
    updF f i x k = f k := by
  simp [updF, h]

theorem reverse_getLast?_eq_head? (l : List Int) : l.reverse.getLast? = l.head? := by
  cases l with
  | nil => rfl
  | cons x xs =>
    rw [List.reverse_cons, List.getLast?_append_cons]
    rfl

/-- Behaviour of the estimate pop loop on the reversed stack: it splits off
a popped prefix of estimates exceeding `dep`, clears the popped entries'
outgoing edges, leaves the head (the stack's last surviving element) at most
`dep`, and touches neither completion, progress, `ti`'s pending status,
`ti`'s inbound edges nor `ti`'s block count. -/
theorem popTrailAux_facts (dep ti : Int) :
    ∀ (ds : List Int) (m : StatusManager),
      ti ∉ m.pending → (∀ v, ti ∉ m.dependency v) →
      (∃ popped, ds = popped ++ (popTrailAux dep ds m).1 ∧
        ∀ x ∈ popped, dep < x ∧ (popTrailAux dep ds m).2.dependency x = []) ∧
      (∀ x, (popTrailAux dep ds m).1.head? = some x → x ≤ dep) ∧
      (popTrailAux dep ds m).2.complete = m.complete ∧
      (popTrailAux dep ds m).2.inProgress = m.inProgress ∧
      ti ∉ (popTrailAux dep ds m).2.pending ∧
      (∀ v, ti ∉ (popTrailAux dep ds m).2.dependency v) ∧
      (popTrailAux dep ds m).2.blockCount ti = m.blockCount ti ∧
      (∀ v, m.dependency v = [] → (popTrailAux dep ds m).2.dependency v = []) := by
  intro ds
  induction ds with
  | nil =>
    intro m hnp hnd
    refine ⟨⟨[], rfl, by simp⟩, ?_, rfl, rfl, hnp, hnd, rfl, fun v h => h⟩
    intro x hx
    exact absurd hx (by simp [popTrailAux])
  | cons d rest ih =>
    intro m hnp hnd
    by_cases hdd : dep < d
    · have hstep : popTrailAux dep (d :: rest) m = popTrailAux dep rest (m.removeDependency d) := by
        show (if dep < d then popTrailAux dep rest (m.removeDependency d) else (d :: rest, m)) = _
        rw [if_pos hdd]
      have hnp' : ti ∉ (m.removeDependency d).pending :=
        removeDependency_pending_not m d (hnd d) hnp
      have hnd' : ∀ v, ti ∉ (m.removeDependency d).dependency v := by
        intro v
        by_cases hv : v = d
        · subst hv
          rw [removeDependency_dependency_self]
          simp
        · rw [removeDependency_dependency_other m hv]
          exact hnd v
      obtain ⟨⟨popped, hsplit, hpop⟩, hhead, hcomp, hprog, hpend, hdep2, hbc, hemp⟩ :=
        ih (m.removeDependency d) hnp' hnd'
      rw [hstep]
      refine ⟨⟨d :: popped, by rw [List.cons_append, ← hsplit], ?_⟩, hhead, ?_, ?_, hpend,
        hdep2, ?_, ?_⟩
      · intro x hx
        rcases List.mem_cons.mp hx with rfl | hx'
        · exact ⟨hdd, hemp x (removeDependency_dependency_self m x)⟩
        · exact hpop x hx'
      · rw [hcomp, removeDependency_complete]
      · rw [hprog, removeDependency_inProgress]
      · rw [hbc, removeDependency_blockCount_not m d (hnd d)]
      · intro v hv
        apply hemp
        by_cases hvd : v = d
        · subst hvd
          exact removeDependency_dependency_self m v
        · rw [removeDependency_dependency_other m hvd]
          exact hv
    · have hstep : popTrailAux dep (d :: rest) m = (d :: rest, m) := by
        show (if dep < d then popTrailAux dep rest (m.removeDependency d) else (d :: rest, m)) = _
        rw [if_neg hdd]
      rw [hstep]
      refine ⟨⟨[], rfl, by simp⟩, ?_, rfl, rfl, hnp, hnd, rfl, fun v h => h⟩
      intro x hx
      simp at hx
      omega

/-- The abort branch with a reported dependency, written as one state
expression. -/
theorem handleAbort_eq_pos (s : CoordState) (ti dep : Int) (h : 0 ≤ dep) :
    handleAbort s ti dep =
      { s with
        execTasks :=
          if ((popTrailAux dep (s.estimateDeps ti).reverse s.execTasks).2.addDependencies
              dep ti).2 then
            ((popTrailAux dep (s.estimateDeps ti).reverse s.execTasks).2.addDependencies
              dep ti).1.clearInProgress ti
          else
            (((popTrailAux dep (s.estimateDeps ti).reverse s.execTasks).2.addDependencies
              dep ti).1.clearInProgress ti).pushPending ti
        estimateDeps := updF s.estimateDeps ti
          ((popTrailAux dep (s.estimateDeps ti).reverse s.execTasks).1.reverse)
        txIncarnations := updF s.txIncarnations ti (s.txIncarnations ti + 1) } := by
  unfold handleAbort
  rw [if_pos h]

/-- C4: on an `ExecAbort` with reported dependency `dep ≥ 0`, under the
run-time invariants that `ti` is neither pending nor the target of any
dependency edge (it was executing): the trailing elements of
`estimateDeps[ti]` exceeding `dep` are popped with their outgoing edges
released, the surviving last element is at most `dep`;
`addDependencies(dep, ti)` records the edge and bumps `ti`'s block count
when `dep` is not complete; `ti`'s in-progress flag is cleared; `ti` is
pushed pending exactly when the blocker was already complete; and
`txIncarnations[ti]` is incremented. -/
theorem C4_abort_reported_dependency (s : CoordState) (ti dep : Int)
    (hdep : 0 ≤ dep)
    (hnp : ti ∉ s.execTasks.pending)
    (hnd : ∀ v, ti ∉ s.execTasks.dependency v) :
    (∃ popped, s.estimateDeps ti = (handleAbort s ti dep).estimateDeps ti ++ popped ∧
      (∀ x ∈ popped, dep < x ∧ (handleAbort s ti dep).execTasks.dependency x = []) ∧
      (∀ x, ((handleAbort s ti dep).estimateDeps ti).getLast? = some x → x ≤ dep)) ∧
    (dep ∉ s.execTasks.complete →
      ti ∈ (handleAbort s ti dep).execTasks.dependency dep ∧
      (handleAbort s ti dep).execTasks.blockCount ti = s.execTasks.blockCount ti + 1) ∧
    ti ∉ (handleAbort s ti dep).execTasks.inProgress ∧
    (ti ∈ (handleAbort s ti dep).execTasks.pending ↔ dep ∈ s.execTasks.complete) ∧
    (handleAbort s ti dep).txIncarnations ti = s.txIncarnations ti + 1 := by
  obtain ⟨⟨popped, hsplit, hpop⟩, hhead, hcomp, hprog, hpend, hdep2, hbc, hemp⟩ :=
    popTrailAux_facts dep ti (s.estimateDeps ti).reverse s.execTasks hnp hnd
  rw [handleAbort_eq_pos s ti dep hdep]
  dsimp only
  by_cases hc : dep ∈ s.execTasks.complete
  · -- blocker already complete: no edge, re-queue
    have ha : (popTrailAux dep (s.estimateDeps ti).reverse s.execTasks).2.addDependencies
        dep ti = ((popTrailAux dep (s.estimateDeps ti).reverse s.execTasks).2, false) := by
      unfold StatusManager.addDependencies
      rw [if_pos (by rw [hcomp]; exact hc)]
    rw [ha]
    dsimp only
    rw [if_neg Bool.false_ne_true]
    refine ⟨⟨popped.reverse, ?_, ?_, ?_⟩, fun hcon => absurd hc hcon, ?_, ?_, ?_⟩
    · rw [updF_same]
      conv_lhs => rw [← List.reverse_reverse (s.estimateDeps ti), hsplit]
      rw [List.reverse_append]
    · intro x hx
      rw [List.mem_reverse] at hx
      refine ⟨(hpop x hx).1, ?_⟩
      rw [pushPending_dependency, clearInProgress_dependency]
      exact (hpop x hx).2
    · rw [updF_same, reverse_getLast?_eq_head?]
      exact hhead
    · rw [pushPending_inProgress, clearInProgress_inProgress]
      simp
    · rw [pushPending_pending, mem_insertU]
      simp [hc]
    · exact updF_same _ _ _
  · -- blocker not complete: edge recorded, block count bumped, no re-queue
    have ha : (popTrailAux dep (s.estimateDeps ti).reverse s.execTasks).2.addDependencies
        dep ti =
        ({ (popTrailAux dep (s.estimateDeps ti).reverse s.execTasks).2 with
           dependency := updF
             (popTrailAux dep (s.estimateDeps ti).reverse s.execTasks).2.dependency dep
             (ti :: (popTrailAux dep (s.estimateDeps ti).reverse s.execTasks).2.dependency dep)
           blockCount := updF
             (popTrailAux dep (s.estimateDeps ti).reverse s.execTasks).2.blockCount ti
             ((popTrailAux dep (s.estimateDeps ti).reverse s.execTasks).2.blockCount ti + 1) },
         true) := by
      unfold StatusManager.addDependencies
      rw [if_neg (by rw [hcomp]; exact hc), if_neg (hdep2 dep)]
    rw [ha]
    dsimp only
    rw [if_pos rfl]
    refine ⟨⟨popped.reverse, ?_, ?_, ?_⟩, fun _ => ⟨?_, ?_⟩, ?_, ?_, ?_⟩
    · rw [updF_same]
      conv_lhs => rw [← List.reverse_reverse (s.estimateDeps ti), hsplit]
      rw [List.reverse_append]
    · intro x hx
      rw [List.mem_reverse] at hx
      refine ⟨(hpop x hx).1, ?_⟩
      rw [clearInProgress_dependency]
      dsimp only
      rw [updF_other _ _ _ (by have := (hpop x hx).1; omega)]
      exact (hpop x hx).2
    · rw [updF_same, reverse_getLast?_eq_head?]
      exact hhead
    · rw [clearInProgress_dependency]
      dsimp only
      rw [updF_same]
      exact List.mem_cons_self ti _
    · rw [clearInProgress_blockCount]
      dsimp only
      rw [updF_same, hbc]
    · rw [clearInProgress_inProgress]
      simp
    · rw [clearInProgress_pending]
      dsimp only
      simp [hpend, hc]
    · exact updF_same _ _ _

/-- A concrete status manager where transaction 1 is executing and
transaction 0 is complete. -/
def sm4 : StatusManager :=
  { pending := []
    inProgress := [1]
    complete := [0]
    dependency := fun _ => []
    blockCount := fun _ => 0 }

/-- A concrete coordinator state built on `sm4`. -/
def s4 : CoordState :=
  { lastTxIo := MakeTxnInputOutput 2
    execTasks := sm4
    validateTasks := makeStatusManager 0
    mvh := MakeMVHashMap
    txIncarnations := fun _ => 0
    estimateDeps := fun _ => [] }

/-- Witness for C4 at a concrete state: the blocker 0 is already complete,
so transaction 1 is re-queued. -/
theorem C4_abort_reported_dependency_witness :
    (1 : Int) ∈ (handleAbort s4 1 0).execTasks.pending :=
  ((C4_abort_reported_dependency s4 1 0 (by decide) (by decide)
    (fun v => by simp [s4, sm4])).2.2.2.1).mpr (by decide)

/-! ## Claim C5: the abort branch with an estimated dependency -/

/-- The abort branch at `dep = -1` while `blockCount[ti] ≥ 0`, as one state
expression. -/
theorem handleAbort_eq_blocked (s : CoordState) (ti : Int)
    (hb : 0 ≤ s.execTasks.blockCount ti) :
    handleAbort s ti (-1) =
      { s with
        execTasks :=
          if (s.execTasks.addDependencies ((s.estimateDeps ti).getLastD 0) ti).2 then
            (s.execTasks.addDependencies ((s.estimateDeps ti).getLastD 0) ti).1.clearInProgress ti
          else
            ((s.execTasks.addDependencies ((s.estimateDeps ti).getLastD 0)
              ti).1.clearInProgress ti).pushPending ti
        estimateDeps := updF s.estimateDeps ti (s.estimateDeps ti ++
          [if ti ≤ (s.estimateDeps ti).getLastD 0 + 1 then ti - 1
           else (s.estimateDeps ti).getLastD 0 + 1])
        txIncarnations := updF s.txIncarnations ti (s.txIncarnations ti + 1) } := by
  unfold handleAbort
  rw [if_neg (by omega : ¬ (0 : Int) ≤ -1), if_pos hb]

/-- The abort branch at `dep = -1` while `blockCount[ti] < 0`, as one state
expression. -/
theorem handleAbort_eq_done (s : CoordState) (ti : Int)
    (hb : ¬ 0 ≤ s.execTasks.blockCount ti) :
    handleAbort s ti (-1) =
      { s with
        execTasks := (s.execTasks.clearInProgress ti).pushPending ti
        txIncarnations := updF s.txIncarnations ti (s.txIncarnations ti + 1) } := by
  unfold handleAbort
  rw [if_neg (by omega : ¬ (0 : Int) ≤ -1), if_neg hb]

/-- C5: on an `ExecAbort` with `Dependency = -1`, under the run-time
invariants that `ti` is neither pending nor the target of any edge: when
`blockCount[ti] ≥ 0` the coordinator takes the estimate (last element of
`estimateDeps[ti]`, 0 when empty), calls `addDependencies(estimate, ti)` —
recording the edge and bumping the count when the estimate is not complete,
re-queuing `ti` exactly when it is — and appends `min(estimate+1, ti-1)` to
`estimateDeps[ti]`; when instead `blockCount[ti] < 0`, no dependency is
added and `ti` is re-pushed pending after its in-progress flag is cleared.
In both cases the incarnation counter is incremented. -/
theorem C5_abort_estimated_dependency (s : CoordState) (ti : Int)
    (hnp : ti ∉ s.execTasks.pending)
    (hnd : ∀ v, ti ∉ s.execTasks.dependency v) :
    (0 ≤ s.execTasks.blockCount ti →
      (handleAbort s ti (-1)).estimateDeps ti =
        s.estimateDeps ti ++ [min ((s.estimateDeps ti).getLastD 0 + 1) (ti - 1)] ∧
      ((s.estimateDeps ti).getLastD 0 ∉ s.execTasks.complete →
        ti ∈ (handleAbort s ti (-1)).execTasks.dependency ((s.estimateDeps ti).getLastD 0) ∧
        (handleAbort s ti (-1)).execTasks.blockCount ti = s.execTasks.blockCount ti + 1) ∧
      (ti ∈ (handleAbort s ti (-1)).execTasks.pending ↔
        (s.estimateDeps ti).getLastD 0 ∈ s.execTasks.complete) ∧
      ti ∉ (handleAbort s ti (-1)).execTasks.inProgress ∧
      (handleAbort s ti (-1)).txIncarnations ti = s.txIncarnations ti + 1) ∧
    (s.execTasks.blockCount ti < 0 →
      (handleAbort s ti (-1)).execTasks.dependency = s.execTasks.dependency ∧
      ti ∈ (handleAbort s ti (-1)).execTasks.pending ∧
      ti ∉ (handleAbort s ti (-1)).execTasks.inProgress ∧
      (handleAbort s ti (-1)).txIncarnations ti = s.txIncarnations ti + 1) := by
  have hmin : (if ti ≤ (s.estimateDeps ti).getLastD 0 + 1 then ti - 1
      else (s.estimateDeps ti).getLastD 0 + 1) =
      min ((s.estimateDeps ti).getLastD 0 + 1) (ti - 1) := by
    rw [Int.min_def]
    split
    · split
      · omega
      · omega
    · split
      · omega
      · omega
  constructor
  · intro hb
    rw [handleAbort_eq_blocked s ti hb]
    dsimp only
    by_cases hec : (s.estimateDeps ti).getLastD 0 ∈ s.execTasks.complete
    · have ha : s.execTasks.addDependencies ((s.estimateDeps ti).getLastD 0) ti =
          (s.execTasks, false) := by
        unfold StatusManager.addDependencies
        rw [if_pos hec]
      rw [ha]
      dsimp only
      rw [if_neg Bool.false_ne_true]
      refine ⟨?_, fun hcon => absurd hec hcon, ?_, ?_, ?_⟩
      · rw [updF_same, hmin]
      · rw [pushPending_pending, mem_insertU]
        exact ⟨fun _ => hec, fun _ => Or.inl rfl⟩
      · rw [pushPending_inProgress, clearInProgress_inProgress]
        simp
      · exact updF_same _ _ _
    · have ha : s.execTasks.addDependencies ((s.estimateDeps ti).getLastD 0) ti =
          ({ s.execTasks with
             dependency := updF s.execTasks.dependency ((s.estimateDeps ti).getLastD 0)
               (ti :: s.execTasks.dependency ((s.estimateDeps ti).getLastD 0))
             blockCount := updF s.execTasks.blockCount ti (s.execTasks.blockCount ti + 1) },
           true) := by
        unfold StatusManager.addDependencies
        rw [if_neg hec, if_neg (hnd _)]
      rw [ha]
      dsimp only
      rw [if_pos rfl]
      refine ⟨?_, fun _ => ⟨?_, ?_⟩, ?_, ?_, ?_⟩
      · rw [updF_same, hmin]
      · rw [clearInProgress_dependency]
        dsimp only
        rw [updF_same]
        exact List.mem_cons_self ti _
      · rw [clearInProgress_blockCount]
        dsimp only
        rw [updF_same]
      · rw [clearInProgress_pending]
        dsimp only
        exact ⟨fun hmem => absurd hmem hnp, fun hcon => absurd hcon hec⟩
      · rw [clearInProgress_inProgress]
        simp
      · exact updF_same _ _ _
  · intro hb
    rw [handleAbort_eq_done s ti (by omega)]
    dsimp only
    refine ⟨?_, ?_, ?_, ?_⟩
    · rw [pushPending_dependency, clearInProgress_dependency]
    · rw [pushPending_pending, mem_insertU]
      exact Or.inl rfl
    · rw [pushPending_inProgress, clearInProgress_inProgress]
      simp
    · exact updF_same _ _ _

/-- Witness for C5 at a concrete state: the estimated blocker 0 is already
complete, so transaction 1 is re-queued. -/
theorem C5_abort_estimated_dependency_witness :
    (1 : Int) ∈ (handleAbort s4 1 (-1)).execTasks.pending :=
  (((C5_abort_estimated_dependency s4 1 (by decide)
    (fun v => by simp [s4, sm4])).1 (by decide)).2.2.1).mpr (by decide)

/-! ## Claim C6: the validation drain and failure handling -/

theorem takeNextPending_fst (m : StatusManager) : (m.takeNextPending).1 = m.minPending := by
  unfold StatusManager.takeNextPending StatusManager.minPending
  cases hm : listMin m.pending <;> simp [hm]

theorem drainValidation_eq_pos (maxComplete : Int) (m : StatusManager)
    (h : m.minPending ≤ maxComplete ∧ 0 ≤ m.minPending) :
    drainValidation maxComplete m =
      ((m.takeNextPending).1 :: (drainValidation maxComplete (m.takeNextPending).2).1,
        (drainValidation maxComplete (m.takeNextPending).2).2) := by
  conv_lhs => rw [drainValidation]
  rw [dif_pos h]

theorem drainValidation_eq_neg (maxComplete : Int) (m : StatusManager)
    (h : ¬ (m.minPending ≤ maxComplete ∧ 0 ≤ m.minPending)) :
    drainValidation maxComplete m = ([], m) := by
  conv_lhs => rw [drainValidation]
  rw [dif_neg h]

/-- Every index popped by the validation drain loop is bounded by the
execution manager's `maxAllComplete` argument. -/
theorem drainValidation_le (maxComplete : Int) :
    ∀ (n : Nat) (m : StatusManager), m.pending.length ≤ n →
      ∀ x ∈ (drainValidation maxComplete m).1, x ≤ maxComplete := by
  intro n
  induction n with
  | zero =>
    intro m hlen x hx
    have hp : m.pending = [] := List.length_eq_zero.mp (Nat.le_zero.mp hlen)
    rw [drainValidation_eq_neg maxComplete m (by
      unfold StatusManager.minPending
      rw [hp]
      simp [listMin])] at hx
    exact absurd hx (List.not_mem_nil x)
  | succ n ih =>
    intro m hlen x hx
    by_cases h : m.minPending ≤ maxComplete ∧ 0 ≤ m.minPending
    · rw [drainValidation_eq_pos maxComplete m h] at hx
      rcases List.mem_cons.mp hx with rfl | hx'
      · rw [takeNextPending_fst]
        exact h.1
      · refine ih (m.takeNextPending).2 ?_ x hx'
        have hlt := takeNextPending_length_lt m (by omega)
        omega
    · rw [drainValidation_eq_neg maxComplete m h] at hx
      exact absurd hx (List.not_mem_nil x)

theorem checkPending_iff (m : StatusManager) (i : Int) :
    m.checkPending i = true ↔ i ∈ m.pending := by
  simp [StatusManager.checkPending]

/-- The marked-estimates store and the revalidation-queue state built by a
failed validation of `tx`. -/
def failMvh (s : CoordState) (tx : Int) : MVHashMap :=
  (s.lastTxIo.AllWriteSet tx).foldl (fun acc v => acc.MarkEstimate v.Path tx) s.mvh

/-- The validation-manager state built by a failed validation of `tx`. -/
def failValidate (s : CoordState) (tx : Int) : StatusManager :=
  (s.validateTasks.pushPendingSet (s.execTasks.getRevalidationRange (tx + 1))).clearInProgress tx

theorem validateStep_eq_true (vcheck : Int → Bool) (s : CoordState) (tx : Int)
    (h : vcheck tx = true) :
    validateStep vcheck s tx = { s with validateTasks := s.validateTasks.markComplete tx } := by
  unfold validateStep
  rw [if_pos h]

theorem validateStep_eq_fail_pending (vcheck : Int → Bool) (s : CoordState) (tx : Int)
    (h : vcheck tx = false) (hp : s.execTasks.checkPending tx = true) :
    validateStep vcheck s tx =
      { s with mvh := failMvh s tx, validateTasks := failValidate s tx } := by
  unfold validateStep
  rw [if_neg (by rw [h]; exact Bool.false_ne_true), if_pos hp]
  rfl

theorem validateStep_eq_fail_requeue (vcheck : Int → Bool) (s : CoordState) (tx : Int)
    (h : vcheck tx = false) (hp : ¬ s.execTasks.checkPending tx = true)
    (hb : s.execTasks.blockCount tx = -1) :
    validateStep vcheck s tx =
      { s with mvh := failMvh s tx
               validateTasks := failValidate s tx
               execTasks := (s.execTasks.pushPending tx).clearComplete tx
               txIncarnations := updF s.txIncarnations tx (s.txIncarnations tx + 1) } := by
  unfold validateStep
  rw [if_neg (by rw [h]; exact Bool.false_ne_true), if_neg hp, if_pos hb]
  rfl

theorem validateStep_eq_fail_blocked (vcheck : Int → Bool) (s : CoordState) (tx : Int)
    (h : vcheck tx = false) (hp : ¬ s.execTasks.checkPending tx = true)
    (hb : ¬ s.execTasks.blockCount tx = -1) :
    validateStep vcheck s tx =
      { s with mvh := failMvh s tx, validateTasks := failValidate s tx } := by
  unfold validateStep
  rw [if_neg (by rw [h]; exact Bool.false_ne_true), if_neg hp, if_neg hb]
  rfl

/-- C6: the validation drain only pops indices not exceeding the execution
manager's `maxAllComplete` snapshot; on a failed `ValidateVersion` of a
drained `tx`, every path in `allOutputs[tx]` is marked estimate in the
MVHashMap, the revalidation range from `tx+1` is pushed pending for
validation, `tx`'s validation in-progress flag is cleared, and `tx` is
requeued for execution (push pending, clear complete, bump incarnation)
exactly when it is not already execution-pending and `blockCount[tx] = -1`;
on success, `tx` is marked validation-complete. -/
theorem C6_validation_drain_and_outcome (vcheck : Int → Bool) (maxComplete : Int)
    (m : StatusManager) (s : CoordState) (tx : Int) :
    (∀ x ∈ (drainValidation maxComplete m).1, x ≤ maxComplete) ∧
    (vcheck tx = false →
      (∀ p ∈ pathsOf (s.lastTxIo.AllWriteSet tx), ∀ c,
        (validateStep vcheck s tx).mvh.lookupCell p tx = some c → c.isEstimate = true) ∧
      (∀ x ∈ s.execTasks.getRevalidationRange (tx + 1),
        x ∈ (validateStep vcheck s tx).validateTasks.pending) ∧
      tx ∉ (validateStep vcheck s tx).validateTasks.inProgress ∧
      (((validateStep vcheck s tx).txIncarnations tx = s.txIncarnations tx + 1 ∧
        tx ∈ (validateStep vcheck s tx).execTasks.pending ∧
        tx ∉ (validateStep vcheck s tx).execTasks.complete) ↔
        (tx ∉ s.execTasks.pending ∧ s.execTasks.blockCount tx = -1))) ∧
    (vcheck tx = true →
      tx ∈ (validateStep vcheck s tx).validateTasks.complete) := by
  refine ⟨drainValidation_le maxComplete m.pending.length m (Nat.le_refl _), ?_, ?_⟩
  · intro hfail
    have hmvh : (validateStep vcheck s tx).mvh = failMvh s tx := by
      by_cases hp : s.execTasks.checkPending tx = true
      · rw [validateStep_eq_fail_pending vcheck s tx hfail hp]
      · by_cases hb : s.execTasks.blockCount tx = -1
        · rw [validateStep_eq_fail_requeue vcheck s tx hfail hp hb]
        · rw [validateStep_eq_fail_blocked vcheck s tx hfail hp hb]
    have hvt : (validateStep vcheck s tx).validateTasks = failValidate s tx := by
      by_cases hp : s.execTasks.checkPending tx = true
      · rw [validateStep_eq_fail_pending vcheck s tx hfail hp]
      · by_cases hb : s.execTasks.blockCount tx = -1
        · rw [validateStep_eq_fail_requeue vcheck s tx hfail hp hb]
        · rw [validateStep_eq_fail_blocked vcheck s tx hfail hp hb]
    refine ⟨?_, ?_, ?_, ?_⟩
    · intro p hp c hc
      rw [hmvh] at hc
      rcases List.mem_map.mp hp with ⟨v, hv, rfl⟩
      exact foldMark_estimate tx _ s.mvh v hv c hc
    · intro x hx
      rw [hvt]
      unfold failValidate
      rw [clearInProgress_pending, mem_pushPendingSet]
      exact Or.inl hx
    · rw [hvt]
      unfold failValidate
      rw [clearInProgress_inProgress]
      simp
    · by_cases hp : s.execTasks.checkPending tx = true
      · rw [validateStep_eq_fail_pending vcheck s tx hfail hp]
        dsimp only
        constructor
        · intro ⟨hinc, _, _⟩
          omega
        · intro ⟨hnp, _⟩
          exact absurd ((checkPending_iff s.execTasks tx).mp hp) hnp
      · by_cases hb : s.execTasks.blockCount tx = -1
        · rw [validateStep_eq_fail_requeue vcheck s tx hfail hp hb]
          dsimp only
          constructor
          · intro _
            refine ⟨?_, hb⟩
            intro hmem
            exact hp ((checkPending_iff s.execTasks tx).mpr hmem)
          · intro _
            refine ⟨updF_same _ _ _, ?_, ?_⟩
            · rw [clearComplete_pending, pushPending_pending, mem_insertU]
              exact Or.inl rfl
            · rw [clearComplete_complete]
              simp
        · rw [validateStep_eq_fail_blocked vcheck s tx hfail hp hb]
          dsimp only
          constructor
          · intro ⟨hinc, _, _⟩
            omega
          · intro ⟨_, hbc⟩
            exact absurd hbc hb
  · intro hok
    rw [validateStep_eq_true vcheck s tx hok]
    dsimp only
    rw [markComplete_complete, mem_insertU]
    exact Or.inl rfl

/-- Witness for C6 at a concrete state: validation of transaction 1
succeeds, so it is marked validation-complete. -/
theorem C6_validation_drain_and_outcome_witness :
    (1 : Int) ∈ (validateStep (fun _ => true) s4 1).validateTasks.complete :=
  (C6_validation_drain_and_outcome (fun _ => true) 0 sm4 s4 1).2.2 rfl

/-! ## Claim C7: the dispatch policy -/

theorem listMin_of_ne_nil {l : List Int} (h : l ≠ []) : ∃ v, listMin l = some v := by
  cases l with
  | nil => exact absurd rfl h
  | cons x xs =>
    cases hxs : listMin xs with
    | none => exact ⟨x, by simp [listMin, hxs]⟩
    | some y => exact ⟨min x y, by simp [listMin, hxs]⟩

/-- With a non-empty queue of non-negative indices, `minPending` is a
member of the queue and is not the sentinel. -/
theorem minPending_facts (m : StatusManager) (hpos : ∀ x ∈ m.pending, 0 ≤ x)
    (hne : m.pending ≠ []) :
    m.minPending ≠ -1 ∧ 0 ≤ m.minPending ∧ m.minPending ∈ m.pending := by
  obtain ⟨v, hv⟩ := listMin_of_ne_nil hne
  have hmem : v ∈ m.pending := listMin_mem hv
  have h0 : 0 ≤ v := hpos v hmem
  have heq : m.minPending = v := by
    unfold StatusManager.minPending
    rw [hv]
    rfl
  rw [heq]
  exact ⟨by omega, h0, hmem⟩

theorem drainSpeculative_eq_neg (m : StatusManager) (incs : Int → Int)
    (h : ¬ m.minPending ≠ -1) :
    drainSpeculative m incs = ([], m) := by
  conv_lhs => rw [drainSpeculative]
  rw [dif_neg h]

theorem drainSpeculative_eq_pos (m : StatusManager) (incs : Int → Int)
    (h : m.minPending ≠ -1) :
    drainSpeculative m incs =
      (((m.takeNextPending).1, incs (m.takeNextPending).1) ::
        (drainSpeculative (m.takeNextPending).2 incs).1,
       (drainSpeculative (m.takeNextPending).2 incs).2) := by
  conv_lhs => rw [drainSpeculative]
  rw [dif_pos h]
  dsimp only
  rw [if_pos (by rw [takeNextPending_fst]; exact h)]

/-- The speculative drain empties the pending queue and dispatches exactly
its members, each with its current incarnation. -/
theorem drainSpeculative_spec :
    ∀ (n : Nat) (m : StatusManager) (incs : Int → Int), m.pending.length ≤ n →
      (∀ x ∈ m.pending, 0 ≤ x) →
      (drainSpeculative m incs).2.pending = [] ∧
      (∀ x ∈ m.pending, (x, incs x) ∈ (drainSpeculative m incs).1) ∧
      (∀ x i, (x, i) ∈ (drainSpeculative m incs).1 → x ∈ m.pending ∧ i = incs x) := by
  intro n
  induction n with
  | zero =>
    intro m incs hlen hpos
    have hp : m.pending = [] := List.length_eq_zero.mp (Nat.le_zero.mp hlen)
    rw [drainSpeculative_eq_neg m incs (by
      unfold StatusManager.minPending
      rw [hp]
      simp [listMin])]
    refine ⟨hp, ?_, ?_⟩
    · intro x hx
      rw [hp] at hx
      exact absurd hx (List.not_mem_nil x)
    · intro x i hx
      exact absurd hx (List.not_mem_nil (x, i))
  | succ n ih =>
    intro m incs hlen hpos
    by_cases hne : m.pending = []
    · rw [drainSpeculative_eq_neg m incs (by
        unfold StatusManager.minPending
        rw [hne]
        simp [listMin])]
      refine ⟨hne, ?_, ?_⟩
      · intro x hx
        rw [hne] at hx
        exact absurd hx (List.not_mem_nil x)
      · intro x i hx
        exact absurd hx (List.not_mem_nil (x, i))
    · obtain ⟨hm1, hm0, hmm⟩ := minPending_facts m hpos hne
      rw [drainSpeculative_eq_pos m incs hm1]
      obtain ⟨v, hv⟩ := listMin_of_ne_nil hne
      have hfst : (m.takeNextPending).1 = m.minPending := takeNextPending_fst m
      have hsnd : (m.takeNextPending).2.pending =
          m.pending.filter fun x => x ≠ v := by
        unfold StatusManager.takeNextPending
        rw [hv]
      have hminv : m.minPending = v := by
        unfold StatusManager.minPending
        rw [hv]
        rfl
      have hlen' : (m.takeNextPending).2.pending.length ≤ n := by
        have := takeNextPending_length_lt m hm1
        omega
      have hpos' : ∀ x ∈ (m.takeNextPending).2.pending, 0 ≤ x := by
        intro x hx
        rw [hsnd] at hx
        exact hpos x (List.mem_filter.mp hx).1
      obtain ⟨hd1, hd2, hd3⟩ := ih (m.takeNextPending).2 incs hlen' hpos'
      refine ⟨hd1, ?_, ?_⟩
      · intro x hx
        by_cases hxv : x = v
        · subst hxv
          rw [hfst, hminv]
          exact List.mem_cons_self _ _
        · refine List.mem_cons_of_mem _ (hd2 x ?_)
          rw [hsnd]
          rw [List.mem_filter]
          exact ⟨hx, by simp [hxv]⟩
      · intro x i hx
        rcases List.mem_cons.mp hx with hx1 | hx2
        · have hx1' := Prod.mk.injEq .. ▸ hx1
          have hxeq : x = (m.takeNextPending).1 ∧ i = incs (m.takeNextPending).1 := by
            constructor
            · exact congrArg Prod.fst hx1
            · exact congrArg Prod.snd hx1
          refine ⟨?_, by rw [hxeq.2, hxeq.1]⟩
          rw [hxeq.1, hfst, hminv]
          exact listMin_mem hv
        · obtain ⟨hmem, hi⟩ := hd3 x i hx2
          rw [hsnd] at hmem
          exact ⟨(List.mem_filter.mp hmem).1, hi⟩

/-- The dispatch phase when the single non-speculative dispatch fires. -/
theorem dispatchPhase_eq_dispatch (s : CoordState)
    (h : s.execTasks.minPending ≠ -1 ∧
      s.execTasks.minPending ≤ s.validateTasks.maxAllComplete + 20)
    (h2 : (s.execTasks.takeNextPending).1 ≠ -1) :
    dispatchPhase s =
      ({ s with execTasks :=
          (drainSpeculative (s.execTasks.takeNextPending).2 s.txIncarnations).2 },
       some ((s.execTasks.takeNextPending).1,
         s.txIncarnations (s.execTasks.takeNextPending).1),
       (drainSpeculative (s.execTasks.takeNextPending).2 s.txIncarnations).1) := by
  unfold dispatchPhase
  dsimp only
  rw [if_pos h]
  rw [if_pos h2]

/-- The dispatch phase when the non-speculative dispatch does not fire. -/
theorem dispatchPhase_eq_nodispatch (s : CoordState)
    (h : ¬ (s.execTasks.minPending ≠ -1 ∧
      s.execTasks.minPending ≤ s.validateTasks.maxAllComplete + 20)) :
    dispatchPhase s =
      ({ s with execTasks := (drainSpeculative s.execTasks s.txIncarnations).2 },
       none,
       (drainSpeculative s.execTasks s.txIncarnations).1) := by
  unfold dispatchPhase
  dsimp only
  rw [if_neg h]

/-- C7: in the dispatch phase, when an execution index is pending and the
smallest one is within 20 of the validated prefix, exactly that smallest
index is dispatched (with its current incarnation) to the non-speculative
queue — and nothing is dispatched there otherwise; afterwards every
remaining pending index is drained to the speculative queue, the pending
queue ends empty, and speculative jobs come exactly from the pending set. -/
theorem C7_dispatch_policy (s : CoordState)
    (hpos : ∀ x ∈ s.execTasks.pending, 0 ≤ x) :
    (s.execTasks.pending ≠ [] →
      s.execTasks.minPending ≤ s.validateTasks.maxAllComplete + 20 →
      (dispatchPhase s).2.1 =
        some (s.execTasks.minPending, s.txIncarnations (s.execTasks.minPending))) ∧
    (¬ (s.execTasks.minPending ≠ -1 ∧
        s.execTasks.minPending ≤ s.validateTasks.maxAllComplete + 20) →
      (dispatchPhase s).2.1 = none) ∧
    (dispatchPhase s).1.execTasks.pending = [] ∧
    (∀ x ∈ s.execTasks.pending,
      (dispatchPhase s).2.1 = some (x, s.txIncarnations x) ∨
        (x, s.txIncarnations x) ∈ (dispatchPhase s).2.2) ∧
    (∀ x i, (x, i) ∈ (dispatchPhase s).2.2 →
      x ∈ s.execTasks.pending ∧ i = s.txIncarnations x) := by
  by_cases hne : s.execTasks.pending = []
  · have hm1 : s.execTasks.minPending = -1 := by
      unfold StatusManager.minPending
      rw [hne]
      simp [listMin]
    have hcond : ¬ (s.execTasks.minPending ≠ -1 ∧
        s.execTasks.minPending ≤ s.validateTasks.maxAllComplete + 20) := by
      rw [hm1]
      simp
    rw [dispatchPhase_eq_nodispatch s hcond]
    rw [drainSpeculative_eq_neg s.execTasks s.txIncarnations (by rw [hm1]; simp)]
    refine ⟨fun hcon _ => absurd hne hcon, fun _ => rfl, hne, ?_, ?_⟩
    · intro x hx
      rw [hne] at hx
      exact absurd hx (List.not_mem_nil x)
    · intro x i hx
      exact absurd hx (List.not_mem_nil (x, i))
  · obtain ⟨hm1, hm0, hmm⟩ := minPending_facts s.execTasks hpos hne
    have hfst : (s.execTasks.takeNextPending).1 = s.execTasks.minPending :=
      takeNextPending_fst s.execTasks
    by_cases hcond : s.execTasks.minPending ≤ s.validateTasks.maxAllComplete + 20
    · -- the non-speculative dispatch fires
      have h2 : (s.execTasks.takeNextPending).1 ≠ -1 := by
        rw [hfst]
        exact hm1
      rw [dispatchPhase_eq_dispatch s ⟨hm1, hcond⟩ h2]
      obtain ⟨v, hv⟩ := listMin_of_ne_nil hne
      have hminv : s.execTasks.minPending = v := by
        unfold StatusManager.minPending
        rw [hv]
        rfl
      have hsnd : (s.execTasks.takeNextPending).2.pending =
          s.execTasks.pending.filter fun x => x ≠ v := by
        unfold StatusManager.takeNextPending
        rw [hv]
      have hpos' : ∀ x ∈ (s.execTasks.takeNextPending).2.pending, 0 ≤ x := by
        intro x hx
        rw [hsnd] at hx
        exact hpos x (List.mem_filter.mp hx).1
      obtain ⟨hd1, hd2, hd3⟩ := drainSpeculative_spec
        (s.execTasks.takeNextPending).2.pending.length
        (s.execTasks.takeNextPending).2 s.txIncarnations (Nat.le_refl _) hpos'
      refine ⟨fun _ _ => by rw [hfst], fun hcon => absurd ⟨hm1, hcond⟩ hcon, hd1, ?_, ?_⟩
      · intro x hx
        by_cases hxv : x = v
        · subst hxv
          left
          rw [hfst, hminv]
        · right
          refine hd2 x ?_
          rw [hsnd, List.mem_filter]
          exact ⟨hx, by simp [hxv]⟩
      · intro x i hx
        obtain ⟨hmem, hi⟩ := hd3 x i hx
        rw [hsnd] at hmem
        exact ⟨(List.mem_filter.mp hmem).1, hi⟩
    · -- no non-speculative dispatch
      have hcon : ¬ (s.execTasks.minPending ≠ -1 ∧
          s.execTasks.minPending ≤ s.validateTasks.maxAllComplete + 20) := by
        intro hc
        exact hcond hc.2
      rw [dispatchPhase_eq_nodispatch s hcon]
      obtain ⟨hd1, hd2, hd3⟩ := drainSpeculative_spec s.execTasks.pending.length
        s.execTasks s.txIncarnations (Nat.le_refl _) hpos
      refine ⟨fun _ hc => absurd hc hcond, fun _ => rfl, hd1, ?_, ?_⟩
      · intro x hx
        right
        exact hd2 x hx
      · exact hd3

/-- Witness for C7 at a concrete state: both transactions of
`makeStatusManager 2` are pending, 0 is dispatched non-speculatively. -/
theorem C7_dispatch_policy_witness :
    (dispatchPhase s3).2.1 =
      some (s3.execTasks.minPending, s3.txIncarnations s3.execTasks.minPending) :=
  (C7_dispatch_policy s3 (by decide)).1 (by decide) (by decide)

/-! ## Claim C9: only non-abort task errors surface -/

theorem coordLoop_cons_fatal (vcheck : Int → Bool) (n : Nat) (r : ExecResult)
    (rest : List ExecResult) (s : CoordState) (e : Nat)
    (hr : r.err = some (.fatal e)) :
    coordLoop vcheck n (r :: rest) s = .fatalErr e s := by
  conv_lhs => rw [coordLoop]
  rw [hr]

theorem coordLoop_cons_abort (vcheck : Int → Bool) (n : Nat) (r : ExecResult)
    (rest : List ExecResult) (s : CoordState) (dep : Int)
    (hr : r.err = some (.execAbort dep)) :
    coordLoop vcheck n (r :: rest) s =
      (if (postResult vcheck (handleAbort s r.ver.TxnIndex dep)).validateTasks.countComplete
            = n ∧
          (postResult vcheck (handleAbort s r.ver.TxnIndex dep)).execTasks.countComplete = n
       then .finished (postResult vcheck (handleAbort s r.ver.TxnIndex dep))
       else coordLoop vcheck n rest (postResult vcheck (handleAbort s r.ver.TxnIndex dep))) := by
  conv_lhs => rw [coordLoop]
  rw [hr]

theorem coordLoop_cons_ok (vcheck : Int → Bool) (n : Nat) (r : ExecResult)
    (rest : List ExecResult) (s : CoordState)
    (hr : r.err = none) :
    coordLoop vcheck n (r :: rest) s =
      (if (postResult vcheck (handleSuccess s r)).validateTasks.countComplete = n ∧
          (postResult vcheck (handleSuccess s r)).execTasks.countComplete = n
       then .finished (postResult vcheck (handleSuccess s r))
       else coordLoop vcheck n rest (postResult vcheck (handleSuccess s r))) := by
  conv_lhs => rw [coordLoop]
  rw [hr]

theorem firstFatal_cons_fatal (r : ExecResult) (rest : List ExecResult) (e : Nat)
    (hr : r.err = some (.fatal e)) : firstFatal (r :: rest) = some e := by
  conv_lhs => rw [firstFatal]
  rw [hr]

theorem firstFatal_cons_abort (r : ExecResult) (rest : List ExecResult) (dep : Int)
    (hr : r.err = some (.execAbort dep)) : firstFatal (r :: rest) = firstFatal rest := by
  conv_lhs => rw [firstFatal]
  rw [hr]

theorem firstFatal_cons_none (r : ExecResult) (rest : List ExecResult)
    (hr : r.err = none) : firstFatal (r :: rest) = firstFatal rest := by
  conv_lhs => rw [firstFatal]
  rw [hr]

/-- C9: the coordinator loop surfaces an error if and only if a consumed
task result carries an error that is not an `ErrExecAbortError`, and the
surfaced error is exactly the first such error of the trace; abort errors
are always recovered internally.  When the loop finishes cleanly, the
consumed prefix of the trace contains no such error. -/
theorem C9_fatal_error_first (vcheck : Int → Bool) (n : Nat) (trace : List ExecResult)
    (s : CoordState) :
    (∀ e s1, coordLoop vcheck n trace s = .fatalErr e s1 → firstFatal trace = some e) ∧
    (∀ s1, coordLoop vcheck n trace s = .finished s1 →
      ∃ pre post, trace = pre ++ post ∧ firstFatal pre = none ∧
        coordLoop vcheck n pre s = .finished s1) := by
  induction trace generalizing s with
  | nil =>
    constructor
    · intro e s1 h
      exact absurd h (by simp [coordLoop])
    · intro s1 h
      exact absurd h (by simp [coordLoop])
  | cons r rest ih =>
    rcases hr : r.err with _ | terr
    · -- successful result
      rw [coordLoop_cons_ok vcheck n r rest s hr]
      by_cases hterm : (postResult vcheck (handleSuccess s r)).validateTasks.countComplete
          = n ∧ (postResult vcheck (handleSuccess s r)).execTasks.countComplete = n
      · rw [if_pos hterm]
        constructor
        · intro e s1 h
          exact absurd h (by simp)
        · intro s1 h
          refine ⟨[r], rest, rfl, firstFatal_cons_none r [] hr, ?_⟩
          rw [coordLoop_cons_ok vcheck n r [] s hr, if_pos hterm]
          exact h
      · rw [if_neg hterm]
        constructor
        · intro e s1 h
          rw [firstFatal_cons_none r rest hr]
          exact (ih _).1 e s1 h
        · intro s1 h
          obtain ⟨pre, post, hsplit, hff, hrun⟩ := (ih _).2 s1 h
          refine ⟨r :: pre, post, by rw [hsplit, List.cons_append], ?_, ?_⟩
          · rw [firstFatal_cons_none r pre hr]
            exact hff
          · rw [coordLoop_cons_ok vcheck n r pre s hr, if_neg hterm]
            exact hrun
    · cases terr with
      | execAbort dep =>
        rw [coordLoop_cons_abort vcheck n r rest s dep hr]
        by_cases hterm : (postResult vcheck
            (handleAbort s r.ver.TxnIndex dep)).validateTasks.countComplete = n ∧
            (postResult vcheck (handleAbort s r.ver.TxnIndex dep)).execTasks.countComplete = n
        · rw [if_pos hterm]
          constructor
          · intro e s1 h
            exact absurd h (by simp)
          · intro s1 h
            refine ⟨[r], rest, rfl, firstFatal_cons_abort r [] dep hr, ?_⟩
            rw [coordLoop_cons_abort vcheck n r [] s dep hr, if_pos hterm]
            exact h
        · rw [if_neg hterm]
          constructor
          · intro e s1 h
            rw [firstFatal_cons_abort r rest dep hr]
            exact (ih _).1 e s1 h
          · intro s1 h
            obtain ⟨pre, post, hsplit, hff, hrun⟩ := (ih _).2 s1 h
            refine ⟨r :: pre, post, by rw [hsplit, List.cons_append], ?_, ?_⟩
            · rw [firstFatal_cons_abort r pre dep hr]
              exact hff
            · rw [coordLoop_cons_abort vcheck n r pre s dep hr, if_neg hterm]
              exact hrun
      | fatal e0 =>
        rw [coordLoop_cons_fatal vcheck n r rest s e0 hr]
        constructor
        · intro e s1 h
          have he : e0 = e := by
            cases h
            rfl
          rw [firstFatal_cons_fatal r rest e0 hr, he]
        · intro s1 h
          exact absurd h (by simp)

/-- A concrete result carrying a fatal (non-abort) error. -/
def resF : ExecResult :=
  { err := some (.fatal 7), ver := ⟨0, 0⟩, txIn := [], txOut := [], txAllOut := [] }

/-- Witness for C9 at a concrete trace: the fatal error 7 is the first and
only surfaced error. -/
theorem C9_fatal_error_first_witness : firstFatal [resF] = some 7 :=
  (C9_fatal_error_first (fun _ => true) 1 [resF] s3).1 7 s3 rfl

end Blockstm
